import Mathlib

/-!
Verification development for the `craftsbot` container-image orchestrator
(`src/craftsbot/craftsbot.py`).  The Python core is shallowly embedded:

* TOML tables become association lists (`List (String × _)`) with
  insertion-order-preserving update (`dictPut`), matching Python `dict`
  semantics for the operations the program uses.
* The two module-level regexes (`_DF_FROM_RE`, `_IMAGE_RE`, `ANSI_ESCAPE`)
  are embedded as executable scanners over `List Char` that reproduce the
  exact backtracking behaviour of `re.sub` for those patterns.
* Recursion that Python bounds only by the finiteness of the data
  (`get_affected_images`'s DFS, `_get_tmpl_tag`'s memoised descent) is
  embedded with an explicit fuel parameter; fuel-sufficiency lemmas show the
  chosen fuel (`size + 1`) never runs out, so the embedded functions agree
  with the Python functions on all inputs on which the latter terminate.
* Filesystem state is a path→content association list; the external build
  tool / hook processes are an oracle parameter giving exit code and output
  lines, mirroring `run`'s interface.
-/

namespace Craftsbot

/-- Association-list lookup, mirroring Python `dict.get`. -/
def dictGet {α : Type} (m : List (String × α)) (k : String) : Option α :=
  match m with
  | [] => none
  | e :: rest => if e.1 = k then some e.2 else dictGet rest k

/-- Association-list update, mirroring Python `dict.__setitem__`:
an existing key keeps its position, a new key is appended at the end. -/
def dictPut {α : Type} (m : List (String × α)) (k : String) (v : α) :
    List (String × α) :=
  match m with
  | [] => [(k, v)]
  | e :: rest => if e.1 = k then (k, v) :: rest else e :: dictPut rest k v

/-- Association-list removal, mirroring `os.remove` on the path→content map
(the program only removes a path it has just written, so the missing-path
error cannot occur on the modelled traces). -/
def dictDrop {α : Type} (m : List (String × α)) (k : String) :
    List (String × α) :=
  match m with
  | [] => []
  | e :: rest => if e.1 = k then rest else e :: dictDrop rest k

/-- A `depends_on` value: TOML `true` (live edge) or a literal tag (pin). -/
inductive DepVal : Type
  | live : DepVal
  | pin (tag : String) : DepVal
deriving DecidableEq, Repr

/-- The `on_success` hook table: `cmd` templates and `env` templates. -/
structure HookInfo : Type where
  cmd : List String := []
  env : List (String × String) := []
deriving DecidableEq, Repr

/-- One image definition table, as read from the `images` table of the
craftsbot TOML file.  Fields the code reads with `.get` default to the
Python defaults; `tag` is read with `info['tag']` only on aliases the code
actually resolves, and is embedded as a total field. -/
structure ImageInfo : Type where
  images : List String := []
  workdir : Option String := none
  tag : String := ""
  tag_tmpl : Option String := none
  depends_on : List (String × DepVal) := []
  on_success : Option HookInfo := none
deriving DecidableEq, Repr

/-- The `images` table of the data file: alias → definition. -/
abbrev Cfg : Type := List (String × ImageInfo)

/-- `Craftsbot.load`'s reverse index: for each alias in table order, each of
its `images` entries is mapped to the alias (later entries overwrite). -/
def imageToAlias (cfg : Cfg) : List (String × String) :=
  cfg.foldl (fun m e => e.2.images.foldl (fun m img => dictPut m img e.1) m) []

/-! ## DependencyGraph: `Craftsbot.get_affected_images`

The Python code builds `dependencies[(k, True)] = [(x, True), ...]` for every
live edge `x depends_on k`, then runs a depth-first post-order traversal from
`(alias, True)` and reverses the accumulated list. -/

/-- The forward-edge list `dependencies.get((k, true), [])`: every alias `x`
(in table order) whose `depends_on` maps `k` to `true`, paired with `true`.
A key whose second component is not `true` has no entries. -/
def dependents (cfg : Cfg) (n : String × Bool) : List (String × Bool) :=
  if n.2 then
    (cfg.filter (fun e => dictGet e.2.depends_on n.1 = some DepVal.live)).map
      (fun e => (e.1, true))
  else []

/-- Iteration over `dependencies.get(alias_and_tag, [])` inside
`topological_sort`, skipping already-visited nodes; `go` is the recursive
visit for one unvisited node. -/
def tsortKids
    (go : List (String × Bool) → List (String × Bool) → (String × Bool) →
      List (String × Bool) × List (String × Bool)) :
    List (String × Bool) → List (String × Bool) → List (String × Bool) →
    List (String × Bool) × List (String × Bool)
  | vis, res, [] => (vis, res)
  | vis, res, c :: cs =>
    if c ∈ vis then tsortKids go vis res cs
    else
      let p := go vis res c
      tsortKids go p.1 p.2 cs

/-- The nested `topological_sort` closure: mark the node visited, recurse into
unvisited forward-edge targets, then append the node (post-order).  The fuel
argument makes the recursion structural; the fuel used by
`get_affected_images` is shown never to run out. -/
def tsortGo (cfg : Cfg) : Nat → List (String × Bool) → List (String × Bool) →
    (String × Bool) → List (String × Bool) × List (String × Bool)
  | 0, vis, res, _ => (vis, res)
  | fuel + 1, vis, res, n =>
    let p := tsortKids (tsortGo cfg fuel) (n :: vis) res (dependents cfg n)
    (p.1, p.2 ++ [n])

/-- `Craftsbot.get_affected_images(alias, tag=True)`: post-order DFS from
`(alias, true)`, reversed.  Fuel `cfg.length + 1` bounds the recursion depth:
every nested call visits a previously unvisited alias of the table. -/
def get_affected_images (cfg : Cfg) (al : String) : List (String × Bool) :=
  ((tsortGo cfg (cfg.length + 1) [] [] (al, true)).2).reverse

/-! ## TagResolver: `Craftsbot._get_tmpl_tag`

`_IMAGE_RE = re.compile(r"{image\.(.*?)}")` and `_IMAGE_RE.sub(subs, tmpl)`:
scan left to right; at each position, a match is the literal `{image.`
followed by the shortest run of non-newline characters up to a `}`; the
callback resolves the captured alias.  The memo (`cache`) maps an alias to
its resolved tag, with the sentinel placed before recursing. -/

/-- The circular-dependency sentinel string placed in the memo before
recursive descent. -/
def sentinel : String := "CIRCULAR_DEPENDENCY"

/-- Capture of `(.*?)}` after the literal `{image.`: the shortest run of
non-newline characters terminated by `}`.  Returns the capture and the
characters after the `}`; `none` when no `}` occurs before a newline or the
end of the string (the regex then has no match at this position). -/
def imgGroup : List Char → Option (List Char × List Char)
  | [] => none
  | c :: rest =>
    if c = '\x7d' then some ([], rest)
    else if c = '\n' then none
    else
      match imgGroup rest with
      | some (g, r) => some (c :: g, r)
      | none => none

/-- Attempt to match `_IMAGE_RE` at the head of the string. -/
def imgMatch : List Char → Option (List Char × List Char)
  | c0 :: c1 :: c2 :: c3 :: c4 :: c5 :: c6 :: t =>
    if (c0, c1, c2, c3, c4, c5, c6) = ('\x7b', 'i', 'm', 'a', 'g', 'e', '.') then
      imgGroup t
    else none
  | _ => none

/-- Result of the recursive tag resolution: a resolved tag together with the
updated memo, an `assert info is not None` failure (the alias is missing from
the table), or fuel exhaustion (never reached at the fuel `getTmplTag`
supplies, see `getTmplTagRec_fuel`). -/
inductive RTag : Type
  | ok (tag : String) (cache : List (String × String)) : RTag
  | assertFail : RTag
  | fuelOut : RTag
deriving DecidableEq, Repr

/-- Result of the template scan (`_IMAGE_RE.sub(subs, tmpl)`). -/
inductive RSub : Type
  | ok (out : List Char) (cache : List (String × String)) : RSub
  | assertFail : RSub
  | fuelOut : RSub
deriving DecidableEq, Repr

/-- The `subs` callback folded over the template: a placeholder whose alias
is absent from `depends_on` or mapped to `true` recurses into the resolver
`resolve`; a pinned alias substitutes the pin literally.  The scan fuel is
supplied as the template's length (a match always consumes at least one
character, so that fuel never runs out; see `imgSubGo_fuel`). -/
def imgSubGo (resolve : List (String × String) → String → RTag)
    (info : ImageInfo) : Nat → List (String × String) → List Char → RSub
  | _, cache, [] => RSub.ok [] cache
  | 0, _, _ :: _ => RSub.fuelOut
  | n + 1, cache, c :: rest =>
    match imgMatch (c :: rest) with
    | some (g, r) =>
      match dictGet info.depends_on (String.mk g) with
      | some (DepVal.pin t) =>
        match imgSubGo resolve info n cache r with
        | RSub.ok out cache2 => RSub.ok (t.data ++ out) cache2
        | e => e
      | _ =>
        match resolve cache (String.mk g) with
        | RTag.ok t cache2 =>
          match imgSubGo resolve info n cache2 r with
          | RSub.ok out cache3 => RSub.ok (t.data ++ out) cache3
          | e => e
        | RTag.assertFail => RSub.assertFail
        | RTag.fuelOut => RSub.fuelOut
    | none =>
      match imgSubGo resolve info n cache rest with
      | RSub.ok out cache2 => RSub.ok (c :: out) cache2
      | e => e

/-- `get_tmpl_tag_rec`: return the memoised tag if present; otherwise, for a
template-less alias memoise and return its literal `tag`; otherwise place the
sentinel in the memo, substitute the template, and memoise the result. -/
def getTmplTagRec (cfg : Cfg) : Nat → List (String × String) → String → RTag
  | 0, _, _ => RTag.fuelOut
  | fuel + 1, cache, al =>
    match dictGet cache al with
    | some t => RTag.ok t cache
    | none =>
      match dictGet cfg al with
      | none => RTag.assertFail
      | some info =>
        match info.tag_tmpl with
        | none => RTag.ok info.tag (dictPut cache al info.tag)
        | some tmpl =>
          match imgSubGo (fun c2 a2 => getTmplTagRec cfg fuel c2 a2) info
              tmpl.data.length (dictPut cache al sentinel) tmpl.data with
          | RSub.ok out cache2 =>
            RTag.ok (String.mk out) (dictPut cache2 al (String.mk out))
          | RSub.assertFail => RTag.assertFail
          | RSub.fuelOut => RTag.fuelOut

/-- `Craftsbot._get_tmpl_tag(alias)`: run the recursion with a fresh memo.
Fuel `cfg.length + 1` bounds the recursion depth, since every recursive
descent first adds a previously unmemoised table alias to the memo. -/
def getTmplTag (cfg : Cfg) (al : String) : RTag :=
  getTmplTagRec cfg (cfg.length + 1) [] al

/-! ## Builder: `_DF_FROM_RE` and `Craftsbot._build`

`_DF_FROM_RE = re.compile(r"^FROM\s+(.+?)(?::.+?)?(\s)", flags=re.M)`.
The scanner below reproduces the exact backtracking order of the CPython
`re` engine for this pattern: `\s+` is greedy (maximal run first, giving one
character back at a time, at least one kept), `(.+?)` and the `.+?` inside
the optional group are lazy (shortest first), and the greedy optional group
`(?::.+?)?` is tried present before absent.  `\s` is embedded as the ASCII
whitespace set (the manifests the program rewrites are ASCII). -/

/-- Python `\s` (ASCII range). -/
def wsChar (c : Char) : Bool :=
  c = ' ' || c = '\t' || c = '\n' || c = '\r' || c = '\x0b' || c = '\x0c'

/-- The lazy `.+?` of the optional group after its `:`: the shortest
nonempty newline-free run followed by a `\s` (which is group 2). -/
def colonBodyGo (accRev : List Char) : List Char →
    Option (List Char × Char × List Char)
  | [] => none
  | c :: r =>
    if wsChar c then some (accRev.reverse, c, r)
    else colonBodyGo (c :: accRev) r

/-- Entry to `colonBodyGo`: the first body character may be anything except
a newline (`.` does not match newline). -/
def colonBody : List Char → Option (List Char × Char × List Char)
  | [] => none
  | b0 :: t => if b0 = '\n' then none else colonBodyGo [b0] t

/-- With group 1 fixed, close the match: try the optional `(?::.+?)`
(greedy option, tried first), then the bare `(\s)`.  Returns the optional
group's text (with its `:`), group 2, and the remainder. -/
def tryClose : List Char → Option (List Char × Char × List Char)
  | [] => none
  | c :: r =>
    if c = ':' then
      match colonBody r with
      | some (body, g2, rest) => some (':' :: body, g2, rest)
      | none => none
    else if wsChar c then some ([], c, r)
    else none

/-- The lazy `(.+?)`: grow group 1 one (non-newline) character at a time,
closing at the first position where `tryClose` succeeds. -/
def tailLoop (g1rev : List Char) : List Char →
    Option (List Char × List Char × Char × List Char)
  | [] => none
  | c :: rest =>
    if c = '\n' then none
    else
      match tryClose rest with
      | some (mid, g2, r) => some ((c :: g1rev).reverse, mid, g2, r)
      | none => tailLoop (c :: g1rev) rest

/-- The greedy `\s+`: start from the maximal whitespace run (reversed in
`wRev`), give one character back to the tail on failure, keep at least one.
Returns the run kept by `\s+`, group 1, the optional group, group 2, and the
remainder. -/
def wsBacktrack : List Char → List Char →
    Option (List Char × List Char × List Char × Char × List Char)
  | [], _ => none
  | w :: wRev, s =>
    match tailLoop [] s with
    | some (g1, mid, g2, r) => some ((w :: wRev).reverse, g1, mid, g2, r)
    | none => wsBacktrack wRev (w :: s)

/-- Attempt `^FROM\s+(.+?)(?::.+?)?(\s)` at the head of the string (the
caller checks the `^` anchor).  Returns `(run, g1, mid, g2, rest)` with the
whole match being `FROM ++ run ++ g1 ++ mid ++ [g2]`. -/
def dfMatch : List Char → Option (List Char × List Char × List Char × Char × List Char)
  | c0 :: c1 :: c2 :: c3 :: t =>
    if (c0, c1, c2, c3) = ('F', 'R', 'O', 'M') then
      let run := t.takeWhile wsChar
      if run = [] then none
      else wsBacktrack run.reverse (t.dropWhile wsChar)
    else none
  | _ => none

/-- One scan step of `_DF_FROM_RE.sub(_format_from, dockerfile)`: at every
line start try the pattern; on a match emit the callback's replacement and
continue after the match, otherwise copy one character.  `fmt` receives
`match.group(0)`, `match.group(1)` and `match.group(2)`.  The fuel is the
text's length (a match consumes at least one character, so it never runs
out; see `dfSubGo_fuel`). -/
def dfSubGo (fmt : List Char → List Char → Char → List Char) :
    Nat → Bool → List Char → List Char
  | _, _, [] => []
  | 0, _, _ :: _ => []
  | n + 1, atStart, c :: rest =>
    if atStart then
      match dfMatch (c :: rest) with
      | some (run, g1, mid, g2, r) =>
        fmt ('F' :: 'R' :: 'O' :: 'M' :: (run ++ g1 ++ mid ++ [g2])) g1 g2 ++
          dfSubGo fmt n (g2 = '\n') r
      | none => c :: dfSubGo fmt n (c = '\n') rest
    else c :: dfSubGo fmt n (c = '\n') rest

/-- `_DF_FROM_RE.sub(fmt, s)` with the anchor state `atStart` (`true` at the
start of the text). -/
def dfSub (fmt : List Char → List Char → Char → List Char) (atStart : Bool)
    (s : List Char) : List Char :=
  dfSubGo fmt s.length atStart s

/-- `Craftsbot._get_tag(alias)`: the stored `tag` field of the alias's
definition.  The Python code asserts the alias exists (`_get_info`); the
embedding totalises with the default definition, and every theorem that
relies on this function carries the presence hypothesis. -/
def get_tag (cfg : Cfg) (al : String) : String :=
  ((dictGet cfg al).getD {}).tag

/-- `_format_from(match)` inside `Craftsbot._build`: map group 1 through the
image→alias index (identity if unmapped); an alias absent from `depends_on`
leaves the match unchanged, `true` substitutes the stored tag of the alias
(`_get_tag`), any other value is substituted literally. -/
def format_from (cfg : Cfg) (info : ImageInfo) (g0 g1 : List Char) (g2 : Char) :
    List Char :=
  let al := (dictGet (imageToAlias cfg) (String.mk g1)).getD (String.mk g1)
  match dictGet info.depends_on al with
  | none => g0
  | some v =>
    let t := match v with
      | DepVal.live => get_tag cfg al
      | DepVal.pin t => t
    ("FROM ".data) ++ g1 ++ ':' :: t.data ++ [g2]

/-! ## Processes, filesystem, and the orchestration commands

The filesystem is a path→content map; external processes (the build tool and
the hooks) are an oracle giving exit code and captured lines, matching
`run`'s interface.  `Event`s record the externally observable actions of a
run: the store read/write, each alias's processing, and each spawned
process. -/

/-- Which stream a captured line came from. -/
inductive StreamKind : Type
  | stdout : StreamKind
  | stderr : StreamKind
deriving DecidableEq, Repr

/-- Path → content map standing for the working tree. -/
abbrev FS : Type := List (String × String)

/-- Oracle for `run(cmd, env)`: exit code and captured `(kind, line)` log. -/
structure RunEnv : Type where
  runCmd : List String → Option (List (String × String)) →
    Int × List (StreamKind × String)

/-- Errors of the orchestration core.  `buildErr`/`hookErr` are
`BuildException`/`HookException`; `assertErr` is the `assert info is not
None` failure; `ioErr` a missing manifest file; `fmtErr` a `str.format`
key error; `fuelErr` is the embedding's fuel exhaustion (unreachable at the
supplied fuel). -/
inductive CbErr : Type
  | buildErr : CbErr
  | hookErr : CbErr
  | assertErr : CbErr
  | ioErr : CbErr
  | fmtErr : CbErr
  | fuelErr : CbErr
deriving DecidableEq, Repr

/-- Externally observable actions of a run. -/
inductive Event : Type
  | loadStore : Event
  | saveStore : Event
  | procStart (al : String) (tag : String) : Event
  | runDocker (params : List String) : Event
  | runHook (ctx : List (String × String)) (cmd : List String)
      (env2 : Option (List (String × String))) : Event
deriving DecidableEq, Repr

/-- Result of `_build`: updated tree, spawned processes, optional error. -/
structure BuildRes : Type where
  fs : FS
  events : List Event
  err : Option CbErr
deriving Repr

/-- Result of `process`/`update_cmd`: updated table and tree, events,
optional error. -/
structure StepRes : Type where
  cfg : Cfg
  fs : FS
  events : List Event
  err : Option CbErr
deriving Repr

/-- `Craftsbot._build(image, alias, tag, info)`: read the manifest, rewrite
its FROM lines, write the rewrite to the `.craftsbot` temp sibling, invoke
`docker build`; on non-zero exit raise `BuildException` (temp file left in
place); on success write the `.bak` backup, overwrite the manifest, delete
the temp file. -/
def build (env : RunEnv) (cfg : Cfg) (image al tag : String)
    (info : ImageInfo) (fs : FS) : BuildRes :=
  let workdir := info.workdir.getD ""
  let dockerfile_path := workdir ++ "/Dockerfile"
  let dockerfile_bak_path := dockerfile_path ++ ".bak"
  let dockerfile_tmp_path := dockerfile_path ++ ".craftsbot"
  match dictGet fs dockerfile_path with
  | none => ⟨fs, [], some CbErr.ioErr⟩
  | some dockerfile =>
    let new_dockerfile :=
      String.mk (dfSub (format_from cfg info) true dockerfile.data)
    let fs1 := dictPut fs dockerfile_tmp_path new_dockerfile
    let params := ["docker", "build", "-f", dockerfile_tmp_path,
                   "-t", image ++ ":" ++ tag, workdir]
    let rc := env.runCmd params none
    if rc.1 ≠ 0 then ⟨fs1, [Event.runDocker params], some CbErr.buildErr⟩
    else
      let fs2 := dictPut fs1 dockerfile_bak_path dockerfile
      let fs3 := dictPut fs2 dockerfile_path new_dockerfile
      let fs4 := dictDrop fs3 dockerfile_tmp_path
      ⟨fs4, [Event.runDocker params], none⟩

/-- Capture of a `{key}` reference in `str.format`: the characters up to the
closing brace. -/
def braceKey : List Char → Option (List Char × List Char)
  | [] => none
  | c :: rest =>
    if c = '\x7d' then some ([], rest)
    else if c = '\x7b' then none
    else
      match braceKey rest with
      | some (g, r) => some (c :: g, r)
      | none => none

/-- Python `str.format(**ctx)` restricted to the plain `{key}` references
hook templates use (`{{`/`}}` escapes included); a missing key or a stray
brace is a formatting error (`none`). -/
def pyFormatGo (ctx : List (String × String)) : List Char → Option (List Char)
  | [] => some []
  | c :: rest =>
    if c = '\x7b' then
      match rest with
      | c2 :: rest2 =>
        if c2 = '\x7b' then ('\x7b' :: ·) <$> pyFormatGo ctx rest2
        else
          match hb : braceKey (c2 :: rest2) with
          | some (key, after) =>
            match dictGet ctx (String.mk key) with
            | some v => (v.data ++ ·) <$> pyFormatGo ctx after
            | none => none
          | none => none
      | [] => none
    else if c = '\x7d' then
      match rest with
      | c2 :: rest2 =>
        if c2 = '\x7d' then ('\x7d' :: ·) <$> pyFormatGo ctx rest2 else none
      | [] => none
    else (c :: ·) <$> pyFormatGo ctx rest
termination_by s => s.length
decreasing_by
  all_goals simp_wf
  all_goals first
    | (have key : ∀ (t g r : List Char), braceKey t = some (g, r) →
          r.length < t.length := by
         intro t
         induction t with
         | nil => intro g r h; simp [braceKey] at h
         | cons c rest ih =>
           intro g r h
           simp only [braceKey] at h
           by_cases hc : c = '\x7d'
           · simp [hc] at h
             obtain ⟨h1, h2⟩ := h
             subst h2
             simp
           · by_cases hb2 : c = '\x7b'
             · simp [hc, hb2] at h
             · simp [hc, hb2] at h
               rcases hm : braceKey rest with _ | ⟨g0, r0⟩ <;> rw [hm] at h
               · simp at h
               · simp at h
                 obtain ⟨h1, h2⟩ := h
                 subst h2
                 exact Nat.lt_trans (ih g0 r0 hm) (Nat.lt_succ_self _)
       have := key _ _ _ hb
       simp only [List.length_cons] at *
       omega)
    | omega

/-- `x.format(**ctx)` on a template string. -/
def pyFormat (ctx : List (String × String)) (s : String) : Option String :=
  (pyFormatGo ctx s.data).map String.mk

/-- `Craftsbot._execute_hook(ctx, hook)`: format the command and the
environment overlay from the context, run the command (`{} or None` turns an
empty overlay into `None`), raise `HookException` on non-zero exit. -/
def execute_hook (env : RunEnv) (ctx : List (String × String))
    (h : HookInfo) : List Event × Option CbErr :=
  match h.cmd.mapM (pyFormat ctx) with
  | none => ([], some CbErr.fmtErr)
  | some cmd =>
    match h.env.mapM (fun kv => (pyFormat ctx kv.2).map (fun v => (kv.1, v))) with
    | none => ([], some CbErr.fmtErr)
    | some envl =>
      let env2 : Option (List (String × String)) :=
        if envl = [] then none else some envl
      let rc := env.runCmd cmd env2
      if rc.1 ≠ 0 then ([Event.runHook ctx cmd env2], some CbErr.hookErr)
      else ([Event.runHook ctx cmd env2], none)

/-- `Craftsbot.process(alias)`: resolve the tag, pick the image name (first
`images` entry, else the alias), build if `workdir` is truthy, run the
`on_success` hook if present, and only then store the resolved tag in the
definition. -/
def process (env : RunEnv) (cfg : Cfg) (fs : FS) (al : String) : StepRes :=
  match getTmplTag cfg al with
  | RTag.assertFail => ⟨cfg, fs, [], some CbErr.assertErr⟩
  | RTag.fuelOut => ⟨cfg, fs, [], some CbErr.fuelErr⟩
  | RTag.ok tag _ =>
    match dictGet cfg al with
    | none => ⟨cfg, fs, [], some CbErr.assertErr⟩
    | some info =>
      let image := info.images.headD al
      let bres :=
        if info.workdir.getD "" ≠ "" then build env cfg image al tag info fs
        else ⟨fs, [], none⟩
      match bres.err with
      | some e => ⟨cfg, bres.fs, Event.procStart al tag :: bres.events, some e⟩
      | none =>
        let hres :=
          match info.on_success with
          | none => ([], none)
          | some h =>
            execute_hook env [("image", image), ("alias", al), ("tag", tag)] h
        match hres.2 with
        | some e =>
          ⟨cfg, bres.fs, Event.procStart al tag :: bres.events ++ hres.1, some e⟩
        | none =>
          ⟨dictPut cfg al { info with tag := tag }, bres.fs,
            Event.procStart al tag :: bres.events ++ hres.1, none⟩

/-- `Craftsbot.update(alias, tag)`: store a literal tag in the definition. -/
def update (cfg : Cfg) (al tag : String) : Cfg × Option CbErr :=
  match dictGet cfg al with
  | none => (cfg, some CbErr.assertErr)
  | some info => (dictPut cfg al { info with tag := tag }, none)

/-- The `for alias, tag in ...affected...` loop of `update_cmd`: process each
entry whose tag component is `true`, saving the store after each processed
alias; an exception aborts the remainder. -/
def runAliases (env : RunEnv) : Cfg → FS → List (String × Bool) → StepRes
  | cfg, fs, [] => ⟨cfg, fs, [], none⟩
  | cfg, fs, (a, t) :: rest =>
    if t = true then
      let p := process env cfg fs a
      match p.err with
      | some e => ⟨p.cfg, p.fs, p.events, some e⟩
      | none =>
        let q := runAliases env p.cfg p.fs rest
        ⟨q.cfg, q.fs, p.events ++ Event.saveStore :: q.events, q.err⟩
    else runAliases env cfg fs rest

/-- `update_cmd(args)`: load the store, optionally `update(alias, tag)`,
then walk the affected list, processing and saving. -/
def update_cmd (env : RunEnv) (cfg0 : Cfg) (fs : FS) (al : String)
    (tagArg : Option String) : StepRes :=
  match tagArg with
  | some t =>
    match update cfg0 al t with
    | (_, some e) => ⟨cfg0, fs, [Event.loadStore], some e⟩
    | (cfg1, none) =>
      let r := runAliases env cfg1 fs (get_affected_images cfg1 al)
      ⟨r.cfg, r.fs, Event.loadStore :: r.events, r.err⟩
  | none =>
    let r := runAliases env cfg0 fs (get_affected_images cfg0 al)
    ⟨r.cfg, r.fs, Event.loadStore :: r.events, r.err⟩

/-! ## ProcessRunner: the module-level `run(cmd, env)`

`run` drains the child's stdout/stderr with a `select` loop: each ready read
returns a byte chunk which is split on newlines; completed lines are
decoded, stripped of ANSI escapes (`ANSI_ESCAPE.sub('', line)`), and logged
in completion order tagged with their stream; the unterminated remainder
stays in that stream's `line_parts` buffer.  After the process exits each
stream's residue is read and every split piece is flushed as a line.

The nondeterminism of `select` and of chunk boundaries is captured by a
schedule parameter: the sequence of `(stream, chunk)` reads the loop
performs, followed by the two final reads.  The exit code is the
`p.returncode` the child produced.  (EINTR during the wait is retried
transparently in the source and has no observable effect, so schedules do
not record it.)  Chunks are modelled at character level (the source decodes
UTF-8 per completed line). -/

/-- Class of the two-character escape's final byte: at sign through Z, or
backslash through underscore. -/
def ansiClass1 (c : Char) : Bool :=
  ('@' ≤ c && c ≤ 'Z') || ('\\' ≤ c && c ≤ '_')

/-- CSI parameter bytes: digit zero through question mark. -/
def ansiParam (c : Char) : Bool := '0' ≤ c && c ≤ '?'

/-- CSI intermediate bytes: space through slash. -/
def ansiInter (c : Char) : Bool := ' ' ≤ c && c ≤ '/'

/-- CSI final byte: at sign through tilde. -/
def ansiFinal (c : Char) : Bool := '@' ≤ c && c ≤ '~'

/-- After ESC and an open bracket: any parameter bytes, then any
intermediate bytes, then one final byte (the classes are disjoint, so the
greedy stars are deterministic). -/
def ansiCSI (s : List Char) : Option (List Char) :=
  match (s.dropWhile ansiParam).dropWhile ansiInter with
  | c :: r => if ansiFinal c then some r else none
  | [] => none

/-- The global substitution of `ANSI_ESCAPE` with the empty string: remove
every match (ESC followed by a one-byte escape or a CSI sequence); an ESC
that starts no match is kept and scanning resumes at the next character. -/
def ansiStrip : List Char → List Char
  | [] => []
  | c :: rest =>
    if c = '\x1b' then
      match rest with
      | c2 :: rest2 =>
        if ansiClass1 c2 then ansiStrip rest2
        else if c2 = '[' then
          match hc : ansiCSI rest2 with
          | some r => ansiStrip r
          | none => c :: ansiStrip (c2 :: rest2)
        else c :: ansiStrip (c2 :: rest2)
      | [] => [c]
    else c :: ansiStrip rest
termination_by s => s.length
decreasing_by
  all_goals simp_wf
  all_goals first
    | (have key : ∀ (s r : List Char), ansiCSI s = some r →
          r.length < s.length := by
         intro s r h
         unfold ansiCSI at h
         have hdw : ∀ (q : Char → Bool) (u : List Char),
             (u.dropWhile q).length ≤ u.length := by
           intro q u
           induction u with
           | nil => simp
           | cons c rest ih =>
             rw [List.dropWhile_cons]
             split
             · exact le_trans ih (Nat.le_succ _)
             · simp
         have h1 : ((s.dropWhile ansiParam).dropWhile ansiInter).length ≤
             s.length :=
           le_trans (hdw _ _) (hdw _ _)
         split at h
         · next c r0 heq =>
           split at h
           · simp at h
             subst h
             rw [heq] at h1
             simp at h1
             omega
           · simp at h
         · simp at h
       have := key _ _ hc
       simp only [List.length_cons] at *
       omega)
    | omega

/-- `bytes.split(b'\n')`: the newline-separated pieces; always nonempty,
and an empty input yields one empty piece. -/
def splitNl : List Char → List (List Char)
  | [] => [[]]
  | c :: rest =>
    if c = '\n' then [] :: splitNl rest
    else
      match splitNl rest with
      | p :: ps => (c :: p) :: ps
      | [] => [[c]]

/-- Processing of one `os.read` chunk against a stream's `line_parts`
buffer: `line_parts.append(chunk_lines[0])`, then every further split piece
completes a line.  Returns the completed (raw) lines and the new buffer. -/
def emitChunk (buffer chunk : List Char) : List (List Char) × List Char :=
  match splitNl chunk with
  | [] => ([], buffer)
  | p0 :: ps =>
    let all := (buffer ++ p0) :: ps
    (all.dropLast, all.getLastD [])

/-- The `select` loop: consume the scheduled reads in order, appending each
completed line (ANSI-stripped, tagged) to the log. -/
def runLoop : List (StreamKind × List Char) → List Char → List Char →
    List (StreamKind × String) →
    List (StreamKind × String) × List Char × List Char
  | [], bo, be, acc => (acc, bo, be)
  | (k, chunk) :: rest, bo, be, acc =>
    let buf := match k with | StreamKind.stdout => bo | StreamKind.stderr => be
    let pr := emitChunk buf chunk
    let acc2 := acc ++ pr.1.map (fun l => (k, String.mk (ansiStrip l)))
    match k with
    | StreamKind.stdout => runLoop rest pr.2 be acc2
    | StreamKind.stderr => runLoop rest bo pr.2 acc2

/-- The flush after process exit: `f.read().split(b'\n')` and every piece is
appended to the buffer and emitted as a line (including a final empty
piece). -/
def flushFinal (k : StreamKind) (buffer finalRead : List Char) :
    List (StreamKind × String) :=
  match splitNl finalRead with
  | [] => []
  | p0 :: ps =>
    ((buffer ++ p0) :: ps).map (fun l => (k, String.mk (ansiStrip l)))

/-- `run(cmd, env)` for a child whose behaviour is the given exit code,
loop-read schedule, and final residues: the exit code together with the
ordered, tagged, stripped line log. -/
def runModel (exitCode : Int) (sched : List (StreamKind × List Char))
    (finalOut finalErr : List Char) : Int × List (StreamKind × String) :=
  let r := runLoop sched [] [] []
  (exitCode,
    r.1 ++ flushFinal StreamKind.stdout r.2.1 finalOut
        ++ flushFinal StreamKind.stderr r.2.2 finalErr)

/-! ## C3: store write cadence -/

/-- Events that are not store accesses. -/
def notStore : Event → Prop
  | Event.loadStore => False
  | Event.saveStore => False
  | _ => True

/-! ## Fuel sufficiency of the tag resolver

Every recursive descent of `get_tmpl_tag_rec` first memoises a previously
unmemoised alias of the table, so the recursion depth is bounded by the
number of table aliases not yet in the memo; the fuel `cfg.length + 1`
supplied by `getTmplTag` therefore never runs out. -/

/-- Number of table entries whose alias is not yet memoised — the measure
bounding the resolver's recursion depth. -/
def cm (cfg : Cfg) (cache : List (String × String)) : Nat :=
  (cfg.filter (fun e => (dictGet cache e.1).isNone)).length

/-- The bytes a given stream produced during the loop: the concatenation of
its scheduled chunks. -/
def bytesOf (k : StreamKind) (sched : List (StreamKind × List Char)) : List Char :=
  ((sched.filter (fun e => e.1 = k)).map (fun e => e.2)).join

/-! ## C5: the resolver as exact placeholder substitution

The claim describes `_get_tmpl_tag` on a non-cyclic template as a pure
substitution: each placeholder whose alias is pinned is replaced by the pin
literal, every other placeholder by the recursively resolved tag of its
alias, and a template-less alias resolves to its stored literal tag.  The
definitions below state that substitution directly (the tag of an alias
being the tag component of a fresh `getTmplTag` run), and the theorems show
the memoised code computes exactly it.  Non-cyclicity is embedded as a rank
function that strictly decreases along the template-reference relation on
the aliases reachable from the query — the standard finite-graph rendering
of an acyclic reference chain. -/

/-- Tag component of a fresh resolution of `al`, `none` when the resolver
fails its `assert info is not None`. -/
def tagOf (cfg : Cfg) (al : String) : Option String :=
  match getTmplTag cfg al with
  | RTag.ok t _ => some t
  | _ => none

/-- Aliases of the placeholders of `s` that the scan resolves recursively:
every captured alias not pinned in `depends_on` (absent or live), in scan
order, with the same fuel discipline as `imgSubGo`. -/
def liveRefsGo (info : ImageInfo) : Nat → List Char → List String
  | _, [] => []
  | 0, _ :: _ => []
  | n + 1, c :: rest =>
    match imgMatch (c :: rest) with
    | some (g, r) =>
      match dictGet info.depends_on (String.mk g) with
      | some (DepVal.pin _) => liveRefsGo info n r
      | _ => String.mk g :: liveRefsGo info n r
    | none => liveRefsGo info n rest

/-- The claim's pure substitution: a pinned placeholder becomes the pin
literal, any other placeholder the recursively resolved tag of its alias
(`none` when that resolution fails); literal characters are copied. -/
def specSubstGo (cfg : Cfg) (info : ImageInfo) : Nat → List Char → Option (List Char)
  | _, [] => some []
  | 0, _ :: _ => none
  | n + 1, c :: rest =>
    match imgMatch (c :: rest) with
    | some (g, r) =>
      match dictGet info.depends_on (String.mk g) with
      | some (DepVal.pin t) =>
        match specSubstGo cfg info n r with
        | some out => some (t.data ++ out)
        | none => none
      | _ =>
        match tagOf cfg (String.mk g) with
        | some t =>
          match specSubstGo cfg info n r with
          | some out => some (t.data ++ out)
          | none => none
        | none => none
    | none =>
      match specSubstGo cfg info n rest with
      | some out => some (c :: out)
      | none => none

/-- Template-reference relation: alias `a` has a template one of whose
non-pinned placeholders captures alias `b`. -/
def refStep (cfg : Cfg) (a b : String) : Prop :=
  ∃ info tmpl, dictGet cfg a = some info ∧ info.tag_tmpl = some tmpl ∧
    b ∈ liveRefsGo info tmpl.data.length tmpl.data

/-- Reachability along template references. -/
def Reach (cfg : Cfg) (a b : String) : Prop :=
  Relation.ReflTransGen (refStep cfg) a b

/-- Three-alias table of the C5 example: a dashed two-placeholder template
over two literal-tagged aliases. -/
def C5cfg : Cfg :=
  [("x", { tag_tmpl := some "\x7bimage.a\x7d-\x7bimage.b\x7d" }),
   ("a", { tag := "1.0" }), ("b", { tag := "2.0" })]

/-- Rank witnessing that the C5 example table is non-cyclic. -/
def C5rk : String → Nat := fun s => if s = "x" then 1 else 0

/-! ## C1: `get_affected_images` as a topological order of the live dependents

The traversal works on nodes `(alias, flag)`; the start node and every edge
target carry the flag `true`.  On the string level, `depends cfg a b` holds
when `b`'s definition maps `a` to the TOML literal `true` (a live edge), and
the claim's reachability is its reflexive-transitive closure.  Acyclicity is
embedded as a rank strictly decreasing along live edges reachable from the
start alias. -/

/-- Live-edge relation of the claim: some table entry named `b` maps `a` to
`true` in its `depends_on`. -/
def depends (cfg : Cfg) (a b : String) : Prop :=
  ∃ e, e ∈ cfg ∧ e.1 = b ∧ dictGet e.2.depends_on a = some DepVal.live

/-- Transitive live-dependence of the claim, reflexive closure. -/
def ReachLive (cfg : Cfg) (a b : String) : Prop :=
  Relation.ReflTransGen (depends cfg) a b

/-- Node-level reachability along the traversal's forward edges. -/
def RelN (cfg : Cfg) (a b : String × Bool) : Prop :=
  Relation.ReflTransGen (fun x y => y ∈ dependents cfg x) a b

/-- Number of table entries whose node is not yet visited — the measure
bounding the traversal's recursion depth. -/
def tm (cfg : Cfg) (vis : List (String × Bool)) : Nat :=
  (cfg.filter (fun e => !(decide ((e.1, true) ∈ vis)))).length

/-- Index of the first occurrence of `a` in `l` (length of `l` when absent). -/
def pos {α : Type} [DecidableEq α] (l : List α) (a : α) : Nat :=
  match l with
  | [] => 0
  | b :: t => if a = b then 0 else pos t a + 1

/-- Two-alias table of the C1 witness: `b` live-depends on `a`. -/
def C1cfg : Cfg :=
  [("a", { tag := "1" }), ("b", { depends_on := [("a", DepVal.live)] })]

/-- Rank witnessing that the C1 witness table is acyclic. -/
def C1rk : String → Nat := fun s => if s = "a" then 1 else 0

/-! ## C8: idempotency of the FROM rewrite

A whitespace character inside a stored tag makes the rewrite
non-idempotent: the second pass closes its match at that whitespace and
duplicates the tail of the tag.  Under cleanliness of the configuration
(reference names nonempty without whitespace or colon, tags nonempty
without whitespace) and of the manifest (newline-terminated lines whose
whitespace run after a leading FROM stays inside the line), a pass maps
each line to a line that the next pass reproduces byte for byte. -/

theorem imgGroup_length {t g r : List Char} (h : imgGroup t = some (g, r)) :
    r.length < t.length := by
  induction t generalizing g r with
  | nil => simp [imgGroup] at h
  | cons c rest ih =>
    simp only [imgGroup] at h
    by_cases hc : c = '\x7d'
    · simp [hc] at h
      obtain ⟨_, h2⟩ := h
      subst h2
      simp
    · by_cases hn : c = '\n'
      · simp [hc, hn] at h
      · simp [hc, hn] at h
        rcases hm : imgGroup rest with _ | ⟨g0, r0⟩ <;> rw [hm] at h
        · simp at h
        · simp at h
          obtain ⟨_, h2⟩ := h
          subst h2
          exact Nat.lt_trans (ih hm) (Nat.lt_succ_self _)

theorem imgMatch_length {s g r : List Char} (h : imgMatch s = some (g, r)) :
    r.length < s.length := by
  unfold imgMatch at h
  split at h
  case h_1 c0 c1 c2 c3 c4 c5 c6 t =>
    split at h
    · have := imgGroup_length h
      simp only [List.length_cons]
      omega
    · exact absurd h (by simp)
  case h_2 => exact absurd h (by simp)

theorem braceKey_length {t g r : List Char} (h : braceKey t = some (g, r)) :
    r.length < t.length := by
  induction t generalizing g r with
  | nil => simp [braceKey] at h
  | cons c rest ih =>
    simp only [braceKey] at h
    by_cases hc : c = '\x7d'
    · simp [hc] at h
      obtain ⟨_, h2⟩ := h
      subst h2
      simp
    · by_cases hb : c = '\x7b'
      · simp [hc, hb] at h
      · simp [hc, hb] at h
        rcases hm : braceKey rest with _ | ⟨g0, r0⟩ <;> rw [hm] at h
        · simp at h
        · simp at h
          obtain ⟨_, h2⟩ := h
          subst h2
          exact Nat.lt_trans (ih hm) (Nat.lt_succ_self _)

theorem dropWhileLen {α : Type} (p : α → Bool) (s : List α) :
    (s.dropWhile p).length ≤ s.length := by
  induction s with
  | nil => simp
  | cons c rest ih =>
    rw [List.dropWhile_cons]
    split
    · exact le_trans ih (Nat.le_succ _)
    · simp

theorem ansiCSI_length {s r : List Char} (h : ansiCSI s = some r) :
    r.length < s.length := by
  unfold ansiCSI at h
  have h1 : ((s.dropWhile ansiParam).dropWhile ansiInter).length ≤ s.length :=
    le_trans (dropWhileLen _ _) (dropWhileLen _ _)
  split at h
  · next c r0 heq =>
    split at h
    · simp at h
      subst h
      rw [heq] at h1
      simp at h1
      omega
    · simp at h
  · simp at h

/-! ## Association-list lemmas -/

theorem dictGet_put_self {α : Type} (m : List (String × α)) (k : String) (v : α) :
    dictGet (dictPut m k v) k = some v := by
  induction m with
  | nil => simp [dictPut, dictGet]
  | cons e rest ih =>
    by_cases he : e.1 = k
    · simp [dictPut, he, dictGet]
    · simp [dictPut, he, dictGet, ih]

theorem dictGet_put_ne {α : Type} (m : List (String × α)) (k k2 : String) (v : α)
    (h : k ≠ k2) : dictGet (dictPut m k v) k2 = dictGet m k2 := by
  induction m with
  | nil => simp [dictPut, dictGet, h]
  | cons e rest ih =>
    by_cases he : e.1 = k
    · simp only [dictPut, he, if_true, dictGet]
      rw [if_neg h, if_neg (he ▸ h)]
    · simp only [dictPut, he, if_false, dictGet]
      by_cases he2 : e.1 = k2 <;> simp [he2, ih]

theorem dictGet_drop_self {α : Type} (m : List (String × α)) (k : String)
    (hnd : (m.map Prod.fst).Nodup) : dictGet (dictDrop m k) k = none := by
  induction m with
  | nil => simp [dictDrop, dictGet]
  | cons e rest ih =>
    simp only [List.map_cons, List.nodup_cons, List.mem_map] at hnd
    by_cases he : e.1 = k
    · simp only [dictDrop, he, if_true]
      subst he
      clear ih
      induction rest with
      | nil => simp [dictGet]
      | cons e2 r2 ih2 =>
        simp only [List.map_cons, List.nodup_cons, List.mem_map] at hnd
        simp only [dictGet]
        have hne : ¬ e2.1 = e.1 := by
          intro hh
          exact hnd.1 ⟨e2, by simp, hh⟩
        simp only [hne, if_false]
        apply ih2
        constructor
        · intro hc
          obtain ⟨x, hx1, hx2⟩ := hc
          exact hnd.1 ⟨x, by simp [hx1], hx2⟩
        · exact hnd.2.2
    · simp only [dictDrop, he, if_false, dictGet, if_neg he]
      exact ih hnd.2

theorem dictGet_drop_ne {α : Type} (m : List (String × α)) (k k2 : String)
    (h : k ≠ k2) : dictGet (dictDrop m k) k2 = dictGet m k2 := by
  induction m with
  | nil => simp [dictDrop, dictGet]
  | cons e rest ih =>
    by_cases he : e.1 = k
    · simp only [dictDrop, he, if_true, dictGet]
      rw [if_neg (he ▸ h)]
    · simp only [dictDrop, he, if_false, dictGet]
      by_cases he2 : e.1 = k2 <;> simp [he2, ih]

theorem dictPut_keys {α : Type} (m : List (String × α)) (k : String) (v : α) :
    ((dictPut m k v).map Prod.fst) = m.map Prod.fst ∨
    ((dictPut m k v).map Prod.fst) = m.map Prod.fst ++ [k] := by
  induction m with
  | nil => simp [dictPut]
  | cons e rest ih =>
    by_cases he : e.1 = k
    · left
      simp [dictPut, he]
    · rcases ih with ih | ih
      · left
        simp [dictPut, he, ih]
      · right
        simp [dictPut, he, ih]

theorem dictPut_nodup {α : Type} (m : List (String × α)) (k : String) (v : α)
    (hnd : (m.map Prod.fst).Nodup) : ((dictPut m k v).map Prod.fst).Nodup := by
  induction m with
  | nil => simp [dictPut]
  | cons e rest ih =>
    simp only [List.map_cons, List.nodup_cons] at hnd
    by_cases he : e.1 = k
    · simp only [dictPut, if_pos he, List.map_cons, List.nodup_cons]
      rw [← he]
      exact hnd
    · simp only [dictPut, he, if_false, List.map_cons, List.nodup_cons]
      refine ⟨?_, ih hnd.2⟩
      rcases dictPut_keys rest k v with hk | hk <;> rw [hk]
      · exact hnd.1
      · simp only [List.mem_append, List.mem_singleton]
        rintro (hmem | he2)
        · exact hnd.1 hmem
        · exact he he2

theorem strAppendNe (s t : String) (h : t.data ≠ []) : s ≠ s ++ t := by
  intro he
  have hd := congrArg String.data he
  rw [String.data_append] at hd
  have hz : t.data.length = 0 := by
    have hl := congrArg List.length hd
    simp only [List.length_append] at hl
    omega
  exact h (List.length_eq_zero.mp hz)

theorem strAppendInj {s t u : String} (h : s ++ t = s ++ u) : t = u := by
  have hd := congrArg String.data h
  rw [String.data_append, String.data_append] at hd
  have h2 := List.append_cancel_left hd
  cases t
  cases u
  exact congrArg String.mk h2

/-! ## C6: atomicity of the manifest swap -/

/-- C6: the manifest swap is atomic with respect to the build tool's exit
status, provided every live dependency of the definition being built is
present in the images table (otherwise `_get_info`'s assertion fires inside
the rewrite, before the temp file is written or the tool is invoked).  When
the tool exits non-zero, `_build` fails with the build error, the manifest
is byte-for-byte unchanged, no `.bak` sibling exists, and the temporary
`.craftsbot` manifest is left in place holding the rewrite; when the tool
exits zero, the `.bak` sibling holds the pre-rewrite manifest, the manifest
holds the rewrite, and the temporary manifest is gone. -/
theorem C6_build_swap_atomic
    (env : RunEnv) (cfg : Cfg) (image al tag : String) (info : ImageInfo)
    (fs : FS) (w df : String)
    (hpres : ∀ k, dictGet info.depends_on k = some DepVal.live →
      dictGet cfg k ≠ none)
    (hw : info.workdir = some w)
    (hnd : (fs.map Prod.fst).Nodup)
    (hdf : dictGet fs (w ++ "/Dockerfile") = some df)
    (hbak : dictGet fs ((w ++ "/Dockerfile") ++ ".bak") = none) :
    ((env.runCmd ["docker", "build", "-f", (w ++ "/Dockerfile") ++ ".craftsbot",
        "-t", image ++ ":" ++ tag, w] none).1 ≠ 0 →
      (build env cfg image al tag info fs).err = some CbErr.buildErr ∧
      dictGet (build env cfg image al tag info fs).fs (w ++ "/Dockerfile") = some df ∧
      dictGet (build env cfg image al tag info fs).fs ((w ++ "/Dockerfile") ++ ".bak") = none ∧
      dictGet (build env cfg image al tag info fs).fs ((w ++ "/Dockerfile") ++ ".craftsbot") =
        some (String.mk (dfSub (format_from cfg info) true df.data))) ∧
    ((env.runCmd ["docker", "build", "-f", (w ++ "/Dockerfile") ++ ".craftsbot",
        "-t", image ++ ":" ++ tag, w] none).1 = 0 →
      (build env cfg image al tag info fs).err = none ∧
      dictGet (build env cfg image al tag info fs).fs ((w ++ "/Dockerfile") ++ ".bak") = some df ∧
      dictGet (build env cfg image al tag info fs).fs (w ++ "/Dockerfile") =
        some (String.mk (dfSub (format_from cfg info) true df.data)) ∧
      dictGet (build env cfg image al tag info fs).fs ((w ++ "/Dockerfile") ++ ".craftsbot") = none) := by
  have hne_df_tmp : (w ++ "/Dockerfile") ≠ (w ++ "/Dockerfile") ++ ".craftsbot" :=
    strAppendNe _ _ (by decide)
  have hne_df_bak : (w ++ "/Dockerfile") ≠ (w ++ "/Dockerfile") ++ ".bak" :=
    strAppendNe _ _ (by decide)
  have hne_bak_tmp : (w ++ "/Dockerfile") ++ ".bak" ≠ (w ++ "/Dockerfile") ++ ".craftsbot" := by
    intro he
    have := strAppendInj he
    exact absurd this (by decide)
  unfold build
  rw [hw]
  simp only [Option.getD_some, hdf]
  by_cases hrc : (env.runCmd ["docker", "build", "-f", (w ++ "/Dockerfile") ++ ".craftsbot",
      "-t", image ++ ":" ++ tag, w] none).1 = 0
  · rw [if_neg (by simp [hrc])]
    refine ⟨fun hc => absurd hrc hc, fun _ => ?_⟩
    refine ⟨rfl, ?_, ?_, ?_⟩
    · show dictGet (dictDrop _ _) _ = _
      rw [dictGet_drop_ne _ _ _ hne_bak_tmp.symm,
        dictGet_put_ne _ _ _ _ hne_df_bak, dictGet_put_self]
    · show dictGet (dictDrop _ _) _ = _
      rw [dictGet_drop_ne _ _ _ hne_df_tmp.symm, dictGet_put_self]
    · refine dictGet_drop_self _ _ ?_
      exact dictPut_nodup _ _ _ (dictPut_nodup _ _ _ (dictPut_nodup _ _ _ hnd))
  · rw [if_pos hrc]
    refine ⟨fun _ => ?_, fun hc => absurd hc hrc⟩
    refine ⟨rfl, ?_, ?_, ?_⟩
    · show dictGet (dictPut _ _ _) _ = _
      rw [dictGet_put_ne _ _ _ _ (fun h => hne_df_tmp h.symm)]
      exact hdf
    · show dictGet (dictPut _ _ _) _ = _
      rw [dictGet_put_ne _ _ _ _ (fun h => hne_bak_tmp h.symm)]
      exact hbak
    · exact dictGet_put_self _ _ _

/-- Witness for C6 at a concrete tree and a build tool failing and
succeeding respectively on two oracles. -/
theorem C6_build_swap_atomic_witness :
    (∀ k, dictGet ({ workdir := some "wd" } : ImageInfo).depends_on k =
      some DepVal.live → dictGet ([] : Cfg) k ≠ none) ∧
    (({ workdir := some "wd" } : ImageInfo).workdir = some "wd") ∧
    ((([("wd/Dockerfile", "FROM a\n")] : FS).map Prod.fst).Nodup) ∧
    (dictGet ([("wd/Dockerfile", "FROM a\n")] : FS) ("wd" ++ "/Dockerfile") = some "FROM a\n") ∧
    (dictGet ([("wd/Dockerfile", "FROM a\n")] : FS) (("wd" ++ "/Dockerfile") ++ ".bak") = none) ∧
    (((⟨fun _ _ => (1, [])⟩ : RunEnv).runCmd ["docker", "build", "-f",
        ("wd" ++ "/Dockerfile") ++ ".craftsbot", "-t", "i" ++ ":" ++ "t", "wd"] none).1 ≠ 0 →
      (build ⟨fun _ _ => (1, [])⟩ [] "i" "a" "t" { workdir := some "wd" }
        [("wd/Dockerfile", "FROM a\n")]).err = some CbErr.buildErr ∧
      dictGet (build ⟨fun _ _ => (1, [])⟩ [] "i" "a" "t" { workdir := some "wd" }
        [("wd/Dockerfile", "FROM a\n")]).fs ("wd" ++ "/Dockerfile") = some "FROM a\n" ∧
      dictGet (build ⟨fun _ _ => (1, [])⟩ [] "i" "a" "t" { workdir := some "wd" }
        [("wd/Dockerfile", "FROM a\n")]).fs (("wd" ++ "/Dockerfile") ++ ".bak") = none ∧
      dictGet (build ⟨fun _ _ => (1, [])⟩ [] "i" "a" "t" { workdir := some "wd" }
        [("wd/Dockerfile", "FROM a\n")]).fs (("wd" ++ "/Dockerfile") ++ ".craftsbot") =
        some (String.mk (dfSub (format_from [] { workdir := some "wd" }) true "FROM a\n".data))) := by
  refine ⟨fun k hk => by simp [dictGet] at hk, rfl, by decide, by decide,
    by decide, ?_⟩
  exact (C6_build_swap_atomic ⟨fun _ _ => (1, [])⟩ [] "i" "a" "t"
    { workdir := some "wd" } [("wd/Dockerfile", "FROM a\n")] "wd" "FROM a\n"
    (fun k hk => by simp [dictGet] at hk) rfl (by decide) (by decide)
    (by decide)).1

/-! ## C7: errors abort processing before the tag is stored -/

theorem process_cfg_or (env : RunEnv) (cfg : Cfg) (fs : FS) (al : String) :
    (process env cfg fs al).cfg = cfg ∨ (process env cfg fs al).err = none := by
  simp only [process]
  rcases hg : getTmplTag cfg al with ⟨tag, cache⟩ | _ | _
  · rcases hi : dictGet cfg al with _ | info
    · simp only [hg, hi]
      left
      trivial
    · rcases hb : (if info.workdir.getD "" ≠ "" then
          build env cfg (info.images.headD al) al tag info fs
        else ⟨fs, [], none⟩).err with _ | e2
      · rcases hh : (match info.on_success with
          | none => (([] : List Event), (none : Option CbErr))
          | some hk =>
            execute_hook env [("image", info.images.headD al), ("alias", al),
              ("tag", tag)] hk).2 with _ | e3
        · right
          simp only [hg, hi, hb, hh]
        · left
          simp only [hg, hi, hb, hh]
      · left
        simp only [hg, hi, hb]
  · simp only [hg]
    left
    trivial
  · simp only [hg]
    left
    trivial

theorem process_err_cfg (env : RunEnv) (cfg : Cfg) (fs : FS) (al : String)
    (e : CbErr) (h : (process env cfg fs al).err = some e) :
    (process env cfg fs al).cfg = cfg := by
  rcases process_cfg_or env cfg fs al with hc | hc
  · exact hc
  · rw [h] at hc
    exact absurd hc (by simp)

/-- C7: a `BuildException`/`HookException` while processing an alias leaves
that alias's stored tag (indeed the whole in-memory table) unchanged —
`process` assigns the resolved tag only after build and hook both succeed —
and aborts the loop: no later alias of the affected sequence is processed
and the store is not saved again. -/
theorem C7_error_aborts (env : RunEnv) (cfg : Cfg) (fs : FS) (al : String)
    (e : CbErr) (rest : List (String × Bool))
    (h : (process env cfg fs al).err = some e) :
    (process env cfg fs al).cfg = cfg ∧
    runAliases env cfg fs ((al, true) :: rest) =
      ⟨cfg, (process env cfg fs al).fs, (process env cfg fs al).events, some e⟩ := by
  have hcfg := process_err_cfg env cfg fs al e h
  refine ⟨hcfg, ?_⟩
  simp only [runAliases, if_pos, h, hcfg]

/-- Witness for C7: a one-alias table whose build tool fails. -/
theorem C7_error_aborts_witness :
    ((process ⟨fun _ _ => (1, [])⟩
        [("a", { workdir := some "wd" }), ("b", { depends_on := [("a", DepVal.live)] })]
        [("wd/Dockerfile", "FROM x\n")] "a").err = some CbErr.buildErr) ∧
    ((process ⟨fun _ _ => (1, [])⟩
        [("a", { workdir := some "wd" }), ("b", { depends_on := [("a", DepVal.live)] })]
        [("wd/Dockerfile", "FROM x\n")] "a").cfg =
      [("a", { workdir := some "wd" }), ("b", { depends_on := [("a", DepVal.live)] })] ∧
    runAliases ⟨fun _ _ => (1, [])⟩
        [("a", { workdir := some "wd" }), ("b", { depends_on := [("a", DepVal.live)] })]
        [("wd/Dockerfile", "FROM x\n")] [("a", true), ("b", true)] =
      ⟨[("a", { workdir := some "wd" }), ("b", { depends_on := [("a", DepVal.live)] })],
        (process ⟨fun _ _ => (1, [])⟩
          [("a", { workdir := some "wd" }), ("b", { depends_on := [("a", DepVal.live)] })]
          [("wd/Dockerfile", "FROM x\n")] "a").fs,
        (process ⟨fun _ _ => (1, [])⟩
          [("a", { workdir := some "wd" }), ("b", { depends_on := [("a", DepVal.live)] })]
          [("wd/Dockerfile", "FROM x\n")] "a").events, some CbErr.buildErr⟩) := by
  refine ⟨by decide, ?_⟩
  exact C7_error_aborts ⟨fun _ _ => (1, [])⟩
    [("a", { workdir := some "wd" }), ("b", { depends_on := [("a", DepVal.live)] })]
    [("wd/Dockerfile", "FROM x\n")] "a" CbErr.buildErr [("b", true)] (by decide)

/-! ## C10: image-name selection in `process` -/

/-- C10: `process` uses `next(iter(info.get('images', [])), alias)` — the
first `images` entry, or the alias itself when `images` is absent or empty —
as the image name both of the build invocation and of the hook context. -/
theorem C10_image_selection (env : RunEnv) (cfg : Cfg) (fs : FS)
    (al : String) (info : ImageInfo) (tag : String)
    (cache : List (String × String))
    (hres : getTmplTag cfg al = RTag.ok tag cache)
    (hinfo : dictGet cfg al = some info)
    (hb : (if info.workdir.getD "" ≠ "" then
        build env cfg (info.images.headD al) al tag info fs
      else ⟨fs, [], none⟩).err = none)
    (hh : (match info.on_success with
      | none => (([] : List Event), (none : Option CbErr))
      | some hk =>
        execute_hook env [("image", info.images.headD al), ("alias", al),
          ("tag", tag)] hk).2 = none) :
    (info.images = [] → info.images.headD al = al) ∧
    (∀ x xs, info.images = x :: xs → info.images.headD al = x) ∧
    (process env cfg fs al).events =
      Event.procStart al tag ::
        (if info.workdir.getD "" ≠ "" then
          build env cfg (info.images.headD al) al tag info fs
        else ⟨fs, [], none⟩).events ++
        (match info.on_success with
        | none => (([] : List Event), (none : Option CbErr))
        | some hk =>
          execute_hook env [("image", info.images.headD al), ("alias", al),
            ("tag", tag)] hk).1 := by
  refine ⟨fun he => by simp [he], fun x xs he => by simp [he], ?_⟩
  simp only [process, hres, hinfo, hb, hh]

/-- Witness for C10 on a two-alias table: an empty `images` list falls back
to the alias, a nonempty one uses its first entry. -/
theorem C10_image_selection_witness :
    (getTmplTag [("a", { tag := "1" })] "a" = RTag.ok "1" [("a", "1")]) ∧
    (dictGet [("a", ({ tag := "1" } : ImageInfo))] "a" = some { tag := "1" }) ∧
    ((({ tag := "1" } : ImageInfo).images = [] →
      ({ tag := "1" } : ImageInfo).images.headD "a" = "a") ∧
    (∀ x xs, ({ tag := "1" } : ImageInfo).images = x :: xs →
      ({ tag := "1" } : ImageInfo).images.headD "a" = x) ∧
    (process ⟨fun _ _ => (0, [])⟩ [("a", { tag := "1" })] [] "a").events =
      Event.procStart "a" "1" ::
        (if ({ tag := "1" } : ImageInfo).workdir.getD "" ≠ "" then
          build ⟨fun _ _ => (0, [])⟩ [("a", { tag := "1" })]
            (({ tag := "1" } : ImageInfo).images.headD "a") "a" "1" { tag := "1" } []
        else ⟨[], [], none⟩).events ++
        (match ({ tag := "1" } : ImageInfo).on_success with
        | none => (([] : List Event), (none : Option CbErr))
        | some hk =>
          execute_hook ⟨fun _ _ => (0, [])⟩
            [("image", ({ tag := "1" } : ImageInfo).images.headD "a"),
             ("alias", "a"), ("tag", "1")] hk).1) := by
  refine ⟨by decide, by decide, ?_⟩
  exact C10_image_selection ⟨fun _ _ => (0, [])⟩ [("a", { tag := "1" })] [] "a"
    { tag := "1" } "1" [("a", "1")] (by decide) (by decide) (by decide) (by decide)

theorem build_notStore (env : RunEnv) (cfg : Cfg) (image al tag : String)
    (info : ImageInfo) (fs : FS) :
    ∀ ev ∈ (build env cfg image al tag info fs).events, notStore ev := by
  intro ev hev
  simp only [build] at hev
  rcases hd : dictGet fs (info.workdir.getD "" ++ "/Dockerfile") with _ | df <;>
    simp only [hd] at hev
  · simp at hev
  · by_cases hrc : (env.runCmd ["docker", "build", "-f",
        info.workdir.getD "" ++ "/Dockerfile" ++ ".craftsbot",
        "-t", image ++ ":" ++ tag, info.workdir.getD ""] none).1 = 0 <;>
      simp [hrc] at hev <;> simp [hev, notStore]

theorem hook_notStore (env : RunEnv) (ctx : List (String × String)) (h : HookInfo) :
    ∀ ev ∈ (execute_hook env ctx h).1, notStore ev := by
  intro ev hev
  simp only [execute_hook] at hev
  rcases hc : h.cmd.mapM (pyFormat ctx) with _ | cmd <;> simp only [hc] at hev
  · simp at hev
  · rcases he : h.env.mapM (fun kv => (pyFormat ctx kv.2).map (fun v => (kv.1, v))) with _ | envl <;>
      simp only [he] at hev
    · simp at hev
    · by_cases hrc : (env.runCmd cmd (if envl = [] then none else some envl)).1 = 0 <;>
        simp [hrc] at hev <;> simp [hev, notStore]

theorem process_notStore (env : RunEnv) (cfg : Cfg) (fs : FS) (al : String) :
    ∀ ev ∈ (process env cfg fs al).events, notStore ev := by
  simp only [process]
  rcases hg : getTmplTag cfg al with ⟨tag, cache⟩ | _ | _ <;> simp only [hg]
  · rcases hi : dictGet cfg al with _ | info <;> simp only [hi]
    · simp
    · have hbev : ∀ ev2 ∈ (if info.workdir.getD "" ≠ "" then
          build env cfg (info.images.headD al) al tag info fs
        else ⟨fs, [], none⟩).events, notStore ev2 := by
        split
        · exact build_notStore env cfg (info.images.headD al) al tag info fs
        · intro ev2 hev2
          simp at hev2
      have hhev : ∀ ev2 ∈ (match info.on_success with
          | none => (([] : List Event), (none : Option CbErr))
          | some hk => execute_hook env [("image", info.images.headD al), ("alias", al),
              ("tag", tag)] hk).1, notStore ev2 := by
        rcases info.on_success with _ | hk
        · intro ev2 hev2
          simp at hev2
        · exact hook_notStore env _ hk
      rcases hb : (if info.workdir.getD "" ≠ "" then
          build env cfg (info.images.headD al) al tag info fs
        else ⟨fs, [], none⟩).err with _ | e2 <;> simp only [hb]
      · rcases hh : (match info.on_success with
          | none => (([] : List Event), (none : Option CbErr))
          | some hk => execute_hook env [("image", info.images.headD al), ("alias", al),
              ("tag", tag)] hk).2 with _ | e3 <;> simp only [hh]
        · exact List.forall_mem_cons.mpr ⟨trivial, List.forall_mem_append.mpr ⟨hbev, hhev⟩⟩
        · exact List.forall_mem_cons.mpr ⟨trivial, List.forall_mem_append.mpr ⟨hbev, hhev⟩⟩
      · exact List.forall_mem_cons.mpr ⟨trivial, hbev⟩
  · simp
  · simp

theorem filterStore_nil (evs : List Event) (hns : ∀ ev ∈ evs, notStore ev) :
    evs.filter (fun ev => ev = Event.loadStore) = [] ∧
    evs.filter (fun ev => ev = Event.saveStore) = [] := by
  induction evs with
  | nil => simp
  | cons e rest ih =>
    have hne1 : ¬ (e = Event.loadStore) := by
      intro h
      have := hns e (by simp)
      rw [h] at this
      exact this
    have hne2 : ¬ (e = Event.saveStore) := by
      intro h
      have := hns e (by simp)
      rw [h] at this
      exact this
    have ihr := ih (fun ev hev => hns ev (by simp [hev]))
    simp only [List.filter_cons]
    simp [hne1, hne2, ihr.1, ihr.2]

theorem runAliases_counts (env : RunEnv) (l : List (String × Bool)) :
    ∀ cfg fs,
    (((runAliases env cfg fs l).events.filter
        (fun ev => ev = Event.loadStore)).length = 0) ∧
    ((runAliases env cfg fs l).err = none →
      ((runAliases env cfg fs l).events.filter
        (fun ev => ev = Event.saveStore)).length =
      (l.filter (fun p => p.2 = true)).length) := by
  induction l with
  | nil =>
    intro cfg fs
    constructor <;> simp [runAliases]
  | cons a rest ih =>
    intro cfg fs
    rcases a with ⟨a1, t⟩
    by_cases ht : t = true
    · subst ht
      simp only [runAliases, if_pos]
      rcases hp : (process env cfg fs a1).err with _ | e
      · have hclean := filterStore_nil (process env cfg fs a1).events
          (process_notStore env cfg fs a1)
        have ihr := ih (process env cfg fs a1).cfg (process env cfg fs a1).fs
        constructor
        · simp only [List.filter_append, List.filter_cons, List.length_append]
          simp [hclean.1, ihr.1]
        · intro herr
          simp only [List.filter_append, List.filter_cons, List.length_append]
          have hq := ihr.2 herr
          simp [hclean.2, hq]
      · constructor
        · exact (filterStore_nil _ (process_notStore env cfg fs a1)).1 ▸ (by
            simp [(filterStore_nil _ (process_notStore env cfg fs a1)).1])
        · intro herr
          simp at herr
    · have hne : (a1, t) ∈ ([(a1, t)] : List (String × Bool)) := by simp
      simp only [runAliases, if_neg ht]
      have ihr := ih cfg fs
      constructor
      · exact ihr.1
      · intro herr
        rw [List.filter_cons]
        simp only [ht]
        simp [ihr.2 herr]

theorem filterLenZero_notMem {α : Type} [DecidableEq α] (l : List α) (x : α)
    (h : (l.filter (fun a => a = x)).length = 0) : x ∉ l := by
  intro hm
  have hmem : x ∈ l.filter (fun a => a = x) :=
    List.mem_filter.mpr ⟨hm, by simp⟩
  rw [List.length_eq_zero.mp h] at hmem
  exact absurd hmem (by simp)

theorem process_start (env : RunEnv) (cfg : Cfg) (fs : FS) (al : String)
    (h : (process env cfg fs al).err = none) :
    ∃ tag, (process env cfg fs al).events.head? =
      some (Event.procStart al tag) := by
  simp only [process] at h ⊢
  rcases hg : getTmplTag cfg al with ⟨tag, cache⟩ | _ | _
  · rcases hi : dictGet cfg al with _ | info
    · simp only [hg, hi] at h
      exact absurd h (by simp)
    · rcases hb : (if info.workdir.getD "" ≠ "" then
          build env cfg (info.images.headD al) al tag info fs
        else ⟨fs, [], none⟩).err with _ | e2
      · rcases hh : (match info.on_success with
          | none => (([] : List Event), (none : Option CbErr))
          | some hk =>
            execute_hook env [("image", info.images.headD al), ("alias", al),
              ("tag", tag)] hk).2 with _ | e3
        · refine ⟨tag, ?_⟩
          simp only [hg, hi, hb, hh]
          rfl
        · simp only [hg, hi, hb, hh] at h
          exact absurd h (by simp)
      · simp only [hg, hi, hb] at h
        exact absurd h (by simp)
  · simp only [hg] at h
    exact absurd h (by simp)
  · simp only [hg] at h
    exact absurd h (by simp)

/-- On a fully successful pass, the event trace of the alias loop decomposes
into one block per live entry, in order: the alias's own processing events
(no store reads or writes among them, starting with that alias's
`procStart`) followed immediately by one store write. -/
theorem runAliases_trace (env : RunEnv) :
    ∀ (l : List (String × Bool)) (cfg : Cfg) (fs : FS),
      (runAliases env cfg fs l).err = none →
      ∃ blocks : List (List Event),
        (runAliases env cfg fs l).events =
          (blocks.map (fun b => b ++ [Event.saveStore])).flatten ∧
        List.Forall₂ (fun (b : List Event) (a : String) =>
            (∀ e ∈ b, notStore e) ∧
            ∃ tag, b.head? = some (Event.procStart a tag))
          blocks ((l.filter (fun p => p.2 = true)).map Prod.fst) := by
  intro l
  induction l with
  | nil =>
    intro cfg fs h
    exact ⟨[], by simp [runAliases], by simp [runAliases]⟩
  | cons a rest ih =>
    intro cfg fs h
    rcases a with ⟨a1, t⟩
    by_cases ht : t = true
    · subst ht
      simp only [runAliases, if_pos] at h ⊢
      rcases hp : (process env cfg fs a1).err with _ | e
      · simp only [hp] at h ⊢
        obtain ⟨blocks, hbe, hbf⟩ :=
          ih (process env cfg fs a1).cfg (process env cfg fs a1).fs h
        refine ⟨(process env cfg fs a1).events :: blocks, ?_, ?_⟩
        · simp only [List.map_cons, List.flatten_cons, hbe]
          simp
        · rw [List.filter_cons]
          simp only [decide_True, List.map_cons]
          exact List.Forall₂.cons
            ⟨process_notStore env cfg fs a1, process_start env cfg fs a1 hp⟩
            hbf
      · simp only [hp] at h
        exact absurd h (by simp)
    · simp only [runAliases, if_neg ht] at h ⊢
      obtain ⟨blocks, hbe, hbf⟩ := ih cfg fs h
      refine ⟨blocks, hbe, ?_⟩
      rw [List.filter_cons]
      have hdt : (decide ((a1, t).2 = true)) = false := by
        simp [ht]
      rw [hdt]
      exact hbf

/-- C3 counterexample: a successful two-alias run (`b` live-depends on `a`)
saves the persisted store twice — once after each processed alias — not
exactly once at the end of the pass. -/
theorem C3_counterexample :
    ((update_cmd ⟨fun _ _ => (0, [])⟩
        [("a", { tag := "1" }),
         ("b", { depends_on := [("a", DepVal.live)] })]
        [] "a" none).err = none) ∧
    (((update_cmd ⟨fun _ _ => (0, [])⟩
        [("a", { tag := "1" }),
         ("b", { depends_on := [("a", DepVal.live)] })]
        [] "a" none).events.filter
          (fun ev => ev = Event.saveStore)).length = 2) := by
  constructor <;> decide

/-- C3 amended: the store is read exactly once, as the very first event of
the run (no later event reads it again), and on a fully successful pass the
remaining trace is exactly one block per live entry of the affected
sequence, in order: the alias's own processing events — none of which reads
or writes the store, starting with that alias's `procStart` — followed
immediately by one store write.  So the store is written once immediately
after each successfully processed alias, between aliases, not once at the
end. -/
theorem C3_amended (env : RunEnv) (cfg0 : Cfg) (fs : FS) (al : String)
    (tagArg : Option String) :
    (∃ r0, (update_cmd env cfg0 fs al tagArg).events =
        Event.loadStore :: r0 ∧ Event.loadStore ∉ r0) ∧
    ((update_cmd env cfg0 fs al tagArg).err = none →
      ∃ blocks : List (List Event),
        (update_cmd env cfg0 fs al tagArg).events =
          Event.loadStore ::
            (blocks.map (fun b => b ++ [Event.saveStore])).flatten ∧
        List.Forall₂ (fun (b : List Event) (a : String) =>
            (∀ e ∈ b, notStore e) ∧
            ∃ tag, b.head? = some (Event.procStart a tag))
          blocks
          (((get_affected_images (match tagArg with
              | some t => (update cfg0 al t).1
              | none => cfg0) al).filter (fun p => p.2 = true)).map
            Prod.fst)) := by
  rcases tagArg with _ | t
  · simp only [update_cmd]
    constructor
    · refine ⟨(runAliases env cfg0 fs (get_affected_images cfg0 al)).events,
        rfl, ?_⟩
      exact filterLenZero_notMem _ _
        (runAliases_counts env (get_affected_images cfg0 al) cfg0 fs).1
    · intro herr
      obtain ⟨blocks, hbe, hbf⟩ :=
        runAliases_trace env (get_affected_images cfg0 al) cfg0 fs herr
      exact ⟨blocks, by rw [hbe], hbf⟩
  · simp only [update_cmd]
    rcases hu : update cfg0 al t with ⟨cfg1, e?⟩
    rcases e? with _ | e
    · simp only []
      constructor
      · refine ⟨(runAliases env cfg1 fs (get_affected_images cfg1 al)).events,
          rfl, ?_⟩
        exact filterLenZero_notMem _ _
          (runAliases_counts env (get_affected_images cfg1 al) cfg1 fs).1
      · intro herr
        obtain ⟨blocks, hbe, hbf⟩ :=
          runAliases_trace env (get_affected_images cfg1 al) cfg1 fs herr
        exact ⟨blocks, by rw [hbe], hbf⟩
    · simp only []
      constructor
      · exact ⟨[], rfl, by simp⟩
      · intro herr
        simp at herr

/-- Witness for C3 amended on the two-alias table of the counterexample. -/
theorem C3_amended_witness :
    (∃ r0, (update_cmd ⟨fun _ _ => (0, [])⟩
        [("a", { tag := "1" }), ("b", { depends_on := [("a", DepVal.live)] })]
        [] "a" none).events = Event.loadStore :: r0 ∧
      Event.loadStore ∉ r0) ∧
    (∃ blocks : List (List Event),
      (update_cmd ⟨fun _ _ => (0, [])⟩
        [("a", { tag := "1" }), ("b", { depends_on := [("a", DepVal.live)] })]
        [] "a" none).events =
        Event.loadStore ::
          (blocks.map (fun b => b ++ [Event.saveStore])).flatten ∧
      List.Forall₂ (fun (b : List Event) (a : String) =>
          (∀ e ∈ b, notStore e) ∧
          ∃ tag, b.head? = some (Event.procStart a tag))
        blocks
        (((get_affected_images [("a", ({ tag := "1" } : ImageInfo)),
            ("b", { depends_on := [("a", DepVal.live)] })] "a").filter
          (fun p => p.2 = true)).map Prod.fst)) := by
  have h := C3_amended ⟨fun _ _ => (0, [])⟩
    [("a", { tag := "1" }), ("b", { depends_on := [("a", DepVal.live)] })]
    [] "a" none
  exact ⟨h.1, h.2 (by decide)⟩

theorem filterLenMono {α : Type} (l : List α) (p q : α → Bool)
    (h : ∀ a, p a = true → q a = true) :
    (l.filter p).length ≤ (l.filter q).length := by
  induction l with
  | nil => simp
  | cons c rest ih =>
    simp only [List.filter_cons]
    by_cases hp : p c = true
    · rw [hp, h c hp]
      simpa using ih
    · rw [Bool.eq_false_iff.mpr hp]
      by_cases hq : q c = true
      · rw [hq]
        simp
        exact le_trans ih (Nat.le_succ _)
      · rw [Bool.eq_false_iff.mpr hq]
        exact ih

theorem dictGet_put_preserve {α : Type} (cache : List (String × α)) (al k : String)
    (v : α) (h : dictGet cache k ≠ none) : dictGet (dictPut cache al v) k ≠ none := by
  by_cases hk : al = k
  · subst hk
    rw [dictGet_put_self]
    simp
  · rw [dictGet_put_ne _ _ _ _ hk]
    exact h

theorem cm_le_of_preserve (cfg : Cfg) (cache cache2 : List (String × String))
    (hp : ∀ k, dictGet cache k ≠ none → dictGet cache2 k ≠ none) :
    cm cfg cache2 ≤ cm cfg cache := by
  refine filterLenMono _ _ _ (fun e he => ?_)
  simp only [Option.isNone_iff_eq_none] at he ⊢
  by_contra hc
  exact (hp e.1 hc) he

theorem cm_put_lt (cfg : Cfg) (cache : List (String × String)) (al : String)
    (v : String) (info : ImageInfo) (hal : dictGet cfg al = some info)
    (hun : dictGet cache al = none) :
    cm cfg (dictPut cache al v) < cm cfg cache := by
  induction cfg with
  | nil => simp [dictGet] at hal
  | cons e rest ih =>
    simp only [dictGet] at hal
    by_cases he : e.1 = al
    · simp only [cm, List.filter_cons]
      have hold : (dictGet cache e.1).isNone = true := by
        rw [he, hun]
        rfl
      have hnew : (dictGet (dictPut cache al v) e.1).isNone = false := by
        rw [he, dictGet_put_self]
        rfl
      have hmono : (rest.filter (fun e2 => (dictGet (dictPut cache al v) e2.1).isNone)).length ≤
          (rest.filter (fun e2 => (dictGet cache e2.1).isNone)).length := by
        refine filterLenMono _ _ _ (fun e2 he2 => ?_)
        simp only [Option.isNone_iff_eq_none] at he2 ⊢
        by_cases hk : al = e2.1
        · rw [← hk, dictGet_put_self] at he2
          exact absurd he2 (by simp)
        · rw [dictGet_put_ne _ _ _ _ hk] at he2
          exact he2
      simp only [hold, hnew, if_true, if_false, List.length_cons]
      simp
      omega
    · simp only [he, if_false] at hal
      have ihr := ih hal
      simp only [cm, List.filter_cons]
      have heq : (dictGet (dictPut cache al v) e.1).isNone = (dictGet cache e.1).isNone := by
        rw [dictGet_put_ne _ _ _ _ (fun hh => he hh.symm)]
      rw [heq]
      simp only [cm] at ihr
      by_cases hc : (dictGet cache e.1).isNone = true
      · simp only [hc, if_true, List.length_cons]
        simp
        omega
      · simp only [Bool.eq_false_iff.mpr hc, if_false]
        simp
        exact ihr

theorem resolveAux (cfg : Cfg) (fuel : Nat) :
    (∀ cache al, cm cfg cache < fuel →
      getTmplTagRec cfg fuel cache al ≠ RTag.fuelOut ∧
      (∀ tag cache2, getTmplTagRec cfg fuel cache al = RTag.ok tag cache2 →
        ∀ k, dictGet cache k ≠ none → dictGet cache2 k ≠ none)) ∧
    (∀ (info : ImageInfo) (m : Nat) cache (s : List Char),
      cm cfg cache < fuel → s.length ≤ m →
      imgSubGo (fun c2 a2 => getTmplTagRec cfg fuel c2 a2) info m cache s ≠ RSub.fuelOut ∧
      (∀ out cache2,
        imgSubGo (fun c2 a2 => getTmplTagRec cfg fuel c2 a2) info m cache s =
          RSub.ok out cache2 →
        ∀ k, dictGet cache k ≠ none → dictGet cache2 k ≠ none)) := by
  induction fuel with
  | zero =>
    constructor
    · intro cache al hcm
      omega
    · intro info m cache s hcm
      omega
  | succ fuel ih =>
    have hP : ∀ cache al, cm cfg cache < fuel + 1 →
        getTmplTagRec cfg (fuel + 1) cache al ≠ RTag.fuelOut ∧
        (∀ tag cache2, getTmplTagRec cfg (fuel + 1) cache al = RTag.ok tag cache2 →
          ∀ k, dictGet cache k ≠ none → dictGet cache2 k ≠ none) := by
      intro cache al hcm
      simp only [getTmplTagRec]
      rcases hc : dictGet cache al with _ | t
      · rcases hcf : dictGet cfg al with _ | info
        · constructor
          · simp
          · intro tag cache2 h
            simp at h
        · rcases ht : info.tag_tmpl with _ | tmpl <;> simp only [ht]
          · constructor
            · simp
            · intro tag cache2 h
              simp at h
              intro k hk
              rw [← h.2]
              exact dictGet_put_preserve cache al k info.tag hk
          · have hcm1 : cm cfg (dictPut cache al sentinel) < fuel :=
              lt_of_lt_of_le (cm_put_lt cfg cache al sentinel info hcf hc) (by omega)
            have hq := ih.2 info tmpl.data.length (dictPut cache al sentinel)
              tmpl.data hcm1 le_rfl
            rcases hs : imgSubGo (fun c2 a2 => getTmplTagRec cfg fuel c2 a2) info
                tmpl.data.length (dictPut cache al sentinel) tmpl.data with
                ⟨out, cache2⟩ | _ | _
            · constructor
              · simp
              · intro tag cache3 h
                simp at h
                intro k hk
                rw [← h.2]
                refine dictGet_put_preserve _ _ _ _ ?_
                exact hq.2 out cache2 hs k (dictGet_put_preserve cache al k sentinel hk)
            · constructor
              · simp
              · intro tag cache3 h
                simp at h
            · exact absurd hs hq.1
      · constructor
        · simp
        · intro tag cache2 h
          simp at h
          intro k hk
          rw [← h.2]
          exact hk
    refine ⟨hP, ?_⟩
    intro info m
    induction m with
    | zero =>
      intro cache s hcm hlen
      have hs : s = [] := List.eq_nil_of_length_eq_zero (Nat.le_zero.mp hlen)
      subst hs
      constructor
      · simp [imgSubGo]
      · intro out cache2 h
        simp [imgSubGo] at h
        intro k hk
        rw [← h.2]
        exact hk
    | succ mm ihm =>
      intro cache s hcm hlen
      match s with
      | [] =>
        constructor
        · simp [imgSubGo]
        · intro out cache2 h
          simp [imgSubGo] at h
          intro k hk
          rw [← h.2]
          exact hk
      | c :: rest =>
        simp only [imgSubGo]
        rcases hmt : imgMatch (c :: rest) with _ | ⟨g, r⟩ <;> try simp only [hmt]
        · have hr := ihm cache rest hcm (by simp at hlen; omega)
          rcases hrec : imgSubGo (fun c2 a2 => getTmplTagRec cfg (fuel + 1) c2 a2)
              info mm cache rest with ⟨out, cache2⟩ | _ | _ <;> try simp only [hrec]
          · constructor
            · simp
            · intro out2 cache3 h
              simp at h
              intro k hk
              rw [← h.2]
              exact hr.2 out cache2 hrec k hk
          · constructor
            · simp
            · intro out2 cache3 h
              simp at h
          · exact absurd hrec hr.1
        · have hrlen : r.length ≤ mm := by
            have h2 := imgMatch_length hmt
            simp only [List.length_cons] at h2 hlen
            omega
          have hpin : ∀ (t : String),
              dictGet info.depends_on (String.mk g) = some (DepVal.pin t) → True :=
            fun _ _ => trivial
          rcases hd : dictGet info.depends_on (String.mk g) with _ | v <;> try simp only [hd]
          · have hres := hP cache (String.mk g) hcm
            rcases hresv : getTmplTagRec cfg (fuel + 1) cache (String.mk g) with
                ⟨t, cache2⟩ | _ | _ <;> try simp only [hresv]
            · have hmono1 := hres.2 t cache2 hresv
              have hcm2 : cm cfg cache2 < fuel + 1 :=
                lt_of_le_of_lt (cm_le_of_preserve cfg cache cache2 hmono1) hcm
              have hr := ihm cache2 r hcm2 hrlen
              rcases hrec : imgSubGo (fun c2 a2 => getTmplTagRec cfg (fuel + 1) c2 a2)
                  info mm cache2 r with ⟨out, cache3⟩ | _ | _ <;> try simp only [hrec]
              · constructor
                · simp
                · intro out2 cache4 h
                  simp at h
                  intro k hk
                  rw [← h.2]
                  exact hr.2 out cache3 hrec k (hmono1 k hk)
              · constructor
                · simp
                · intro out2 cache4 h
                  simp at h
              · exact absurd hrec hr.1
            · constructor
              · simp
              · intro out2 cache4 h
                simp at h
            · exact absurd hresv hres.1
          · rcases v with _ | t
            · have hres := hP cache (String.mk g) hcm
              rcases hresv : getTmplTagRec cfg (fuel + 1) cache (String.mk g) with
                  ⟨t, cache2⟩ | _ | _ <;> try simp only [hresv]
              · have hmono1 := hres.2 t cache2 hresv
                have hcm2 : cm cfg cache2 < fuel + 1 :=
                  lt_of_le_of_lt (cm_le_of_preserve cfg cache cache2 hmono1) hcm
                have hr := ihm cache2 r hcm2 hrlen
                rcases hrec : imgSubGo (fun c2 a2 => getTmplTagRec cfg (fuel + 1) c2 a2)
                    info mm cache2 r with ⟨out, cache3⟩ | _ | _ <;> try simp only [hrec]
                · constructor
                  · simp
                  · intro out2 cache4 h
                    simp at h
                    intro k hk
                    rw [← h.2]
                    exact hr.2 out cache3 hrec k (hmono1 k hk)
                · constructor
                  · simp
                  · intro out2 cache4 h
                    simp at h
                · exact absurd hrec hr.1
              · constructor
                · simp
                · intro out2 cache4 h
                  simp at h
              · exact absurd hresv hres.1
            · have hr := ihm cache r hcm hrlen
              rcases hrec : imgSubGo (fun c2 a2 => getTmplTagRec cfg (fuel + 1) c2 a2)
                  info mm cache r with ⟨out, cache2⟩ | _ | _ <;> try simp only [hrec]
              · constructor
                · simp
                · intro out2 cache3 h
                  simp at h
                  intro k hk
                  rw [← h.2]
                  exact hr.2 out cache2 hrec k hk
              · constructor
                · simp
                · intro out2 cache3 h
                  simp at h
              · exact absurd hrec hr.1

/-- The fuel supplied by `_get_tmpl_tag` never runs out: resolution
terminates on every table and alias. -/
theorem getTmplTag_total (cfg : Cfg) (al : String) :
    getTmplTag cfg al ≠ RTag.fuelOut := by
  have hcm : cm cfg [] < cfg.length + 1 := by
    have := List.length_filter_le (fun e => (dictGet ([] : List (String × String)) e.1).isNone) cfg
    simp only [cm]
    omega
  exact ((resolveAux cfg (cfg.length + 1)).1 [] al hcm).1

/-! ## C2: template cycles and the sentinel -/

theorem imgMatch_ne_brace {c : Char} (t : List Char) (h : c ≠ '\x7b') :
    imgMatch (c :: t) = none := by
  unfold imgMatch
  split
  · next c0 c1 c2 c3 c4 c5 c6 t0 heq =>
    rw [if_neg]
    intro hc
    simp at hc
    cases heq
    exact h hc.1
  · rfl

theorem imgGroup_clean (g rest : List Char) (h7d : '\x7d' ∉ g) (hnl : '\n' ∉ g) :
    imgGroup (g ++ '\x7d' :: rest) = some (g, rest) := by
  induction g with
  | nil => simp [imgGroup]
  | cons c g0 ih =>
    simp only [List.mem_cons, not_or] at h7d hnl
    have h1 : ¬ c = '\x7d' := fun h => h7d.1 h.symm
    have h2 : ¬ c = '\n' := fun h => hnl.1 h.symm
    simp only [List.cons_append, imgGroup, if_neg h1, if_neg h2, List.append_eq]
    rw [ih h7d.2 hnl.2]

theorem imgSubGo_clean (resolve : List (String × String) → String → RTag)
    (info : ImageInfo) (pre : List Char) :
    ∀ (rest2 : List Char) (m : Nat) cache, '\x7b' ∉ pre →
      (pre ++ rest2).length ≤ m →
    imgSubGo resolve info m cache (pre ++ rest2) =
      match imgSubGo resolve info (m - pre.length) cache rest2 with
      | RSub.ok out c2 => RSub.ok (pre ++ out) c2
      | e => e := by
  induction pre with
  | nil =>
    intro rest2 m cache _ hlen
    simp only [List.nil_append, List.length_nil, Nat.sub_zero]
    rcases imgSubGo resolve info m cache rest2 with ⟨out, c2⟩ | _ | _ <;> simp
  | cons p pre0 ih =>
    intro rest2 m cache hbr hlen
    simp only [List.mem_cons, not_or] at hbr
    simp only [List.cons_append, List.length_cons] at hlen ⊢
    match m, hlen with
    | mm + 1, hlen =>
      simp only [imgSubGo, imgMatch_ne_brace _ (fun h => hbr.1 h.symm)]
      rw [ih rest2 mm cache hbr.2 (by omega)]
      have harith : mm - pre0.length = mm + 1 - (pre0.length + 1) := by omega
      rw [← harith]
      rcases imgSubGo resolve info (mm - pre0.length) cache rest2 with ⟨out, c2⟩ | _ | _ <;>
        simp

/-- C2 counterexample: alias `a` whose template `"x-{image.a}"` refers back
to itself resolves to `"x-CIRCULAR_DEPENDENCY"` — the placeholder expands to
the sentinel, but the resolved tag is not the literal sentinel string. -/
theorem C2_counterexample :
    (getTmplTag [("a", { tag := "t", tag_tmpl := some "x-\x7bimage.a\x7d" })] "a" =
      RTag.ok "x-CIRCULAR_DEPENDENCY" [("a", "x-CIRCULAR_DEPENDENCY")]) ∧
    "x-CIRCULAR_DEPENDENCY" ≠ sentinel := by
  constructor <;> decide

/-- C2 amended: resolution of a self-referring template always terminates,
and the placeholder that refers back to the alias being resolved expands to
the sentinel string in place: for a template `pre ++ "{image.<alias>}" ++
suf` (no other placeholders), the resolved tag is `pre ++
"CIRCULAR_DEPENDENCY" ++ suf` — which equals the bare sentinel exactly when
the template is the bare placeholder. -/
theorem imgSubGo_clean_nil (resolve : List (String × String) → String → RTag)
    (info : ImageInfo) (suf : List Char) (m : Nat) (cache : List (String × String))
    (h : '\x7b' ∉ suf) (hm : suf.length ≤ m) :
    imgSubGo resolve info m cache suf = RSub.ok suf cache := by
  have h2 := imgSubGo_clean resolve info suf [] m cache h (by simpa using hm)
  simp only [List.append_nil] at h2
  rw [h2]
  rcases m - suf.length with _ | m2 <;> simp [imgSubGo]

/-- C2 amended: resolution of a self-referring template always terminates,
and the placeholder that refers back to the alias being resolved expands to
the sentinel string in place: for a template `pre ++ "{image.<alias>}" ++
suf` (no other placeholders), the resolved tag is `pre ++
"CIRCULAR_DEPENDENCY" ++ suf` — which equals the bare sentinel exactly when
the template is the bare placeholder. -/
theorem C2_amended :
    (∀ (cfg : Cfg) (al : String), getTmplTag cfg al ≠ RTag.fuelOut) ∧
    (∀ (a t0 : String) (pre suf : List Char),
      '\x7b' ∉ pre → '\x7b' ∉ suf → '\x7d' ∉ a.data → '\n' ∉ a.data →
      getTmplTag [(a, { tag := t0, tag_tmpl := some (String.mk (pre ++
          '\x7b' :: 'i' :: 'm' :: 'a' :: 'g' :: 'e' :: '.' ::
            (a.data ++ '\x7d' :: suf))) })] a =
        RTag.ok (String.mk (pre ++ sentinel.data ++ suf))
          [(a, String.mk (pre ++ sentinel.data ++ suf))]) := by
  refine ⟨getTmplTag_total, ?_⟩
  intro a t0 pre suf hbp hbs h7a hna
  obtain ⟨ad⟩ := a
  simp only [String.data] at h7a hna
  simp only [getTmplTag, getTmplTagRec, dictGet, dictPut, if_pos rfl, if_true]
  rw [imgSubGo_clean _ _ pre _ _ _ hbp le_rfl]
  have harith : (pre ++ '\x7b' :: 'i' :: 'm' :: 'a' :: 'g' :: 'e' :: '.' ::
      (ad ++ '\x7d' :: suf)).length - pre.length =
      ('\x7b' :: 'i' :: 'm' :: 'a' :: 'g' :: 'e' :: '.' :: (ad ++ '\x7d' :: suf)).length := by
    simp [List.length_append]
  rw [harith]
  simp only [List.length_cons, imgSubGo]
  have hmatch : imgMatch ('\x7b' :: 'i' :: 'm' :: 'a' :: 'g' :: 'e' :: '.' ::
      (ad ++ '\x7d' :: suf)) = some (ad, suf) := by
    have hm1 : imgMatch ('\x7b' :: 'i' :: 'm' :: 'a' :: 'g' :: 'e' :: '.' ::
        (ad ++ '\x7d' :: suf)) = imgGroup (ad ++ '\x7d' :: suf) := by
      simp [imgMatch]
    rw [hm1, imgGroup_clean ad suf h7a hna]
  rw [hmatch]
  simp only [dictGet, if_pos rfl, if_true]
  rw [imgSubGo_clean_nil _ _ suf _ _ hbs (by simp [List.length_append]; omega)]
  simp [dictPut, List.append_assoc]

/-- Witness for C2 amended at the counterexample's configuration. -/
theorem C2_amended_witness :
    ('\x7b' ∉ ['x', '-']) ∧ ('\x7b' ∉ ([] : List Char)) ∧
    ('\x7d' ∉ ("a" : String).data) ∧ ('\n' ∉ ("a" : String).data) ∧
    getTmplTag [("a", { tag := "t", tag_tmpl := some (String.mk (['x', '-'] ++
        '\x7b' :: 'i' :: 'm' :: 'a' :: 'g' :: 'e' :: '.' ::
          (("a" : String).data ++ '\x7d' :: []))) })] "a" =
      RTag.ok (String.mk (['x', '-'] ++ sentinel.data ++ []))
        [("a", String.mk (['x', '-'] ++ sentinel.data ++ []))] := by
  refine ⟨by decide, by decide, by decide, by decide, ?_⟩
  exact C2_amended.2 "a" "t" ['x', '-'] [] (by decide) (by decide) (by decide)
    (by decide)

/-! ## C9: stream projection of the `run` log -/

theorem splitNl_ne_nil (s : List Char) : splitNl s ≠ [] := by
  cases s with
  | nil => simp [splitNl]
  | cons c rest =>
    simp only [splitNl]
    split
    · simp
    · split <;> simp

theorem splitNl_noNl (s : List Char) : '\n' ∉ (splitNl s).getLastD [] := by
  induction s with
  | nil => simp [splitNl]
  | cons c rest ih =>
    simp only [splitNl]
    by_cases hc : c = '\n'
    · rw [if_pos hc]
      rcases hs : splitNl rest with _ | ⟨p, ps⟩
      · exact absurd hs (splitNl_ne_nil rest)
      · rw [hs] at ih
        simpa using ih
    · rw [if_neg hc]
      rcases hs : splitNl rest with _ | ⟨p, ps⟩
      · exact absurd hs (splitNl_ne_nil rest)
      · rw [hs] at ih
        rcases ps with _ | ⟨q, qs⟩
        · simp at ih ⊢
          exact ⟨fun h => hc h.symm, ih⟩
        · simpa using ih

theorem splitNl_cons_nl (rest : List Char) :
    splitNl ('\n' :: rest) = [] :: splitNl rest := by
  simp [splitNl]

theorem splitNl_cons_ne {c : Char} (rest : List Char) (hc : ¬ c = '\n')
    {p : List Char} {ps : List (List Char)} (hs : splitNl rest = p :: ps) :
    splitNl (c :: rest) = (c :: p) :: ps := by
  simp only [splitNl, if_neg hc, hs]

theorem getLastDgetD_irrel {α : Type} (x : α) (l : List α) (d1 d2 : α) :
    (x :: l).getLast?.getD d1 = (x :: l).getLast?.getD d2 := by
  induction l generalizing x with
  | nil => simp
  | cons y l2 ih =>
    rw [List.getLast?_cons_cons]
    exact ih y

theorem splitNl_noNl_eq (s : List Char) (h : '\n' ∉ s) : splitNl s = [s] := by
  induction s with
  | nil => simp [splitNl]
  | cons c rest ih =>
    simp only [List.mem_cons, not_or] at h
    rw [splitNl_cons_ne rest (fun hcc => h.1 hcc.symm) (ih h.2)]

theorem splitNl_append (a b : List Char) :
    splitNl (a ++ b) =
      (splitNl a).dropLast ++ splitNl ((splitNl a).getLastD [] ++ b) := by
  induction a with
  | nil => simp [splitNl]
  | cons c a2 ih =>
    rcases hs : splitNl a2 with _ | ⟨p2, ps2⟩
    · exact absurd hs (splitNl_ne_nil a2)
    rw [hs] at ih
    by_cases hc : c = '\n'
    · subst hc
      rw [List.cons_append, splitNl_cons_nl (a2 ++ b), splitNl_cons_nl a2, hs, ih]
      rw [List.dropLast_cons_of_ne_nil (by simp : (p2 :: ps2) ≠ [])]
      rw [List.getLastD_cons]
      rcases ps2 with _ | ⟨q, qs⟩ <;> simp [List.getLastD_cons]
      rw [getLastDgetD_irrel q qs p2 []]
    · rcases hs2 : splitNl (a2 ++ b) with _ | ⟨p, ps⟩
      · exact absurd hs2 (splitNl_ne_nil (a2 ++ b))
      rw [hs2] at ih
      rw [List.cons_append, splitNl_cons_ne (a2 ++ b) hc hs2,
        splitNl_cons_ne a2 hc hs]
      rcases ps2 with _ | ⟨q, qs⟩
      · simp only [List.dropLast_single, List.nil_append, List.getLastD_cons,
          List.getLastD_nil] at ih ⊢
        rcases hs3 : splitNl (p2 ++ b) with _ | ⟨p3, ps3⟩
        · exact absurd hs3 (splitNl_ne_nil (p2 ++ b))
        rw [hs3] at ih
        injection ih with hp hps
        subst hp
        subst hps
        rw [List.cons_append, splitNl_cons_ne (p2 ++ b) hc hs3]
      · rw [List.dropLast_cons₂]
        simp only [List.getLastD_cons] at ih ⊢
        rw [List.dropLast_cons_of_ne_nil (by simp : (q :: qs) ≠ [])] at ih
        simp only [List.cons_append] at ih ⊢
        injection ih with hp hps
        subst hp
        subst hps
        simp

theorem splitNl_noNl_front (buffer chunk : List Char) (h : '\n' ∉ buffer)
    {p0 : List Char} {ps : List (List Char)} (hs : splitNl chunk = p0 :: ps) :
    splitNl (buffer ++ chunk) = (buffer ++ p0) :: ps := by
  induction buffer with
  | nil => simpa using hs
  | cons c b2 ih =>
    simp only [List.mem_cons, not_or] at h
    rw [List.cons_append, splitNl_cons_ne (b2 ++ chunk)
      (fun hcc => h.1 hcc.symm) (ih h.2)]
    simp

theorem emitChunk_eq (buffer chunk : List Char) (h : '\n' ∉ buffer) :
    emitChunk buffer chunk = ((splitNl (buffer ++ chunk)).dropLast,
      (splitNl (buffer ++ chunk)).getLastD []) := by
  rcases hs : splitNl chunk with _ | ⟨p0, ps⟩
  · exact absurd hs (splitNl_ne_nil chunk)
  · simp only [emitChunk, hs]
    rw [splitNl_noNl_front buffer chunk h hs]

theorem dropLastApp {α : Type} (l1 l2 : List α) (h : l2 ≠ []) :
    (l1 ++ l2).dropLast = l1 ++ l2.dropLast := by
  induction l1 with
  | nil => simp
  | cons x l ih =>
    rw [List.cons_append, List.dropLast_cons_of_ne_nil (by simp [h]), ih]
    simp

theorem getLastD_irrel {α : Type} (l : List α) (h : l ≠ []) (d1 d2 : α) :
    l.getLastD d1 = l.getLastD d2 := by
  rcases l with _ | ⟨y, l3⟩
  · exact absurd rfl h
  · rw [List.getLastD_cons, List.getLastD_cons]

theorem getLastDApp {α : Type} (l1 l2 : List α) (h : l2 ≠ []) :
    ∀ d, (l1 ++ l2).getLastD d = l2.getLastD d := by
  induction l1 with
  | nil =>
    intro d
    simp
  | cons x l ih =>
    intro d
    rw [List.cons_append, List.getLastD_cons, ih x]
    exact getLastD_irrel l2 h x d

theorem bytesOf_cons_self (k : StreamKind) (chunk : List Char)
    (rest : List (StreamKind × List Char)) :
    bytesOf k ((k, chunk) :: rest) = chunk ++ bytesOf k rest := by
  simp [bytesOf]

theorem bytesOf_cons_ne (k k0 : StreamKind) (chunk : List Char)
    (rest : List (StreamKind × List Char)) (h : k0 ≠ k) :
    bytesOf k ((k0, chunk) :: rest) = bytesOf k rest := by
  simp [bytesOf, List.filter_cons, h]

theorem tagFilter_self (k : StreamKind) (l : List (List Char))
    (f : List Char → String) :
    (((l.map (fun x => (k, f x))).filter (fun e => e.1 = k)).map
      (fun e => e.2)) = l.map f := by
  induction l with
  | nil => simp
  | cons x l2 ih => simp [List.filter_cons, ih]

theorem tagFilter_ne (k k0 : StreamKind) (l : List (List Char))
    (f : List Char → String) (h : k0 ≠ k) :
    (((l.map (fun x => (k0, f x))).filter (fun e => e.1 = k)).map
      (fun e => e.2)) = [] := by
  induction l with
  | nil => simp
  | cons x l2 ih => simp [List.filter_cons, h, ih]

theorem runLoop_proj : ∀ (sched : List (StreamKind × List Char)) (bo be : List Char)
    (acc : List (StreamKind × String)), '\n' ∉ bo → '\n' ∉ be →
    (∀ k, ((runLoop sched bo be acc).1.filter (fun l => l.1 = k)).map (fun l => l.2) =
      ((acc.filter (fun l => l.1 = k)).map (fun l => l.2)) ++
        ((splitNl ((match k with
            | StreamKind.stdout => bo
            | StreamKind.stderr => be) ++ bytesOf k sched)).dropLast).map
          (fun l => String.mk (ansiStrip l))) ∧
    ((runLoop sched bo be acc).2.1 =
      (splitNl (bo ++ bytesOf StreamKind.stdout sched)).getLastD []) ∧
    ((runLoop sched bo be acc).2.2 =
      (splitNl (be ++ bytesOf StreamKind.stderr sched)).getLastD []) := by
  intro sched
  induction sched with
  | nil =>
    intro bo be acc hbo hbe
    refine ⟨fun k => ?_, ?_, ?_⟩
    · rcases k <;>
        simp [runLoop, bytesOf, splitNl_noNl_eq _ hbo, splitNl_noNl_eq _ hbe]
    · simp [runLoop, bytesOf, splitNl_noNl_eq _ hbo]
    · simp [runLoop, bytesOf, splitNl_noNl_eq _ hbe]
  | cons ev rest ih =>
    intro bo be acc hbo hbe
    rcases ev with ⟨k0, chunk⟩
    rcases k0 with _ | _
    · -- stdout chunk
      have hrl : runLoop ((StreamKind.stdout, chunk) :: rest) bo be acc =
          runLoop rest ((splitNl (bo ++ chunk)).getLastD []) be
            (acc ++ ((splitNl (bo ++ chunk)).dropLast).map
              (fun l => (StreamKind.stdout, String.mk (ansiStrip l)))) := by
        simp only [runLoop, emitChunk_eq bo chunk hbo]
      have hnb : '\n' ∉ (splitNl (bo ++ chunk)).getLastD [] := splitNl_noNl _
      have ihr := ih ((splitNl (bo ++ chunk)).getLastD []) be
        (acc ++ ((splitNl (bo ++ chunk)).dropLast).map
          (fun l => (StreamKind.stdout, String.mk (ansiStrip l)))) hnb hbe
      refine ⟨fun k => ?_, ?_, ?_⟩
      · rw [hrl, (ihr.1 k)]
        rcases k with _ | _
        · rw [bytesOf_cons_self]
          simp only [List.filter_append, List.map_append,
            tagFilter_self StreamKind.stdout]
          rw [← List.append_assoc bo chunk, splitNl_append (bo ++ chunk),
            dropLastApp _ _ (splitNl_ne_nil _), List.map_append, List.append_assoc]
        · rw [bytesOf_cons_ne _ _ _ _ (by simp)]
          simp only [List.filter_append, List.map_append,
            tagFilter_ne StreamKind.stdout StreamKind.stderr _ _ (by simp)]
          simp
          intro a b hm
          have hm2 := List.dropLast_subset _ hm
          rcases List.mem_map.mp hm2 with ⟨x, hx1, hx2⟩
          cases hx2
          simp
      · rw [hrl, ihr.2.1, bytesOf_cons_self, ← List.append_assoc bo chunk]
        rw [splitNl_append (bo ++ chunk), getLastDApp _ _ (splitNl_ne_nil _)]
      · rw [hrl, ihr.2.2, bytesOf_cons_ne _ _ _ _ (by simp)]
    · -- stderr chunk
      have hrl : runLoop ((StreamKind.stderr, chunk) :: rest) bo be acc =
          runLoop rest bo ((splitNl (be ++ chunk)).getLastD [])
            (acc ++ ((splitNl (be ++ chunk)).dropLast).map
              (fun l => (StreamKind.stderr, String.mk (ansiStrip l)))) := by
        simp only [runLoop, emitChunk_eq be chunk hbe]
      have hnb : '\n' ∉ (splitNl (be ++ chunk)).getLastD [] := splitNl_noNl _
      have ihr := ih bo ((splitNl (be ++ chunk)).getLastD [])
        (acc ++ ((splitNl (be ++ chunk)).dropLast).map
          (fun l => (StreamKind.stderr, String.mk (ansiStrip l)))) hbo hnb
      refine ⟨fun k => ?_, ?_, ?_⟩
      · rw [hrl, (ihr.1 k)]
        rcases k with _ | _
        · rw [bytesOf_cons_ne _ _ _ _ (by simp)]
          simp only [List.filter_append, List.map_append,
            tagFilter_ne StreamKind.stderr StreamKind.stdout _ _ (by simp)]
          simp
          intro a b hm
          have hm2 := List.dropLast_subset _ hm
          rcases List.mem_map.mp hm2 with ⟨x, hx1, hx2⟩
          cases hx2
          simp
        · rw [bytesOf_cons_self]
          simp only [List.filter_append, List.map_append,
            tagFilter_self StreamKind.stderr]
          rw [← List.append_assoc be chunk, splitNl_append (be ++ chunk),
            dropLastApp _ _ (splitNl_ne_nil _), List.map_append, List.append_assoc]
      · rw [hrl, ihr.2.1, bytesOf_cons_ne _ _ _ _ (by simp)]
      · rw [hrl, ihr.2.2, bytesOf_cons_self, ← List.append_assoc be chunk]
        rw [splitNl_append (be ++ chunk), getLastDApp _ _ (splitNl_ne_nil _)]

theorem flushFilter_self (k : StreamKind) (buf fin : List Char) (h : '\n' ∉ buf) :
    ((flushFinal k buf fin).filter (fun l => l.1 = k)).map (fun l => l.2) =
      (splitNl (buf ++ fin)).map (fun l => String.mk (ansiStrip l)) := by
  rcases hs : splitNl fin with _ | ⟨p0, ps⟩
  · exact absurd hs (splitNl_ne_nil fin)
  · simp only [flushFinal, hs]
    rw [splitNl_noNl_front buf fin h hs]
    exact tagFilter_self k _ _

theorem flushFilter_ne (k k0 : StreamKind) (buf fin : List Char) (hk : k0 ≠ k) :
    ((flushFinal k0 buf fin).filter (fun l => l.1 = k)).map (fun l => l.2) = [] := by
  rcases hs : splitNl fin with _ | ⟨p0, ps⟩
  · exact absurd hs (splitNl_ne_nil fin)
  · simp only [flushFinal, hs]
    exact tagFilter_ne k k0 _ _ hk

/-- C9: `run` returns the child's real exit code, and the log projects onto
each stream exactly: restricted to one stream's tag, the logged lines are
the newline-split pieces of everything that stream produced (loop chunks
followed by the post-exit residual read), each piece ANSI-stripped, with the
final (possibly empty) residual piece flushed as a last line.  Lines enter
the log in the order the schedule completes them, so cross-stream order is
completion order by construction. -/
theorem C9_run_stream_projection (exitCode : Int)
    (sched : List (StreamKind × List Char)) (finalOut finalErr : List Char) :
    (runModel exitCode sched finalOut finalErr).1 = exitCode ∧
    ∀ k, (((runModel exitCode sched finalOut finalErr).2.filter
        (fun l => l.1 = k)).map (fun l => l.2)) =
      (splitNl (bytesOf k sched ++ (match k with
        | StreamKind.stdout => finalOut
        | StreamKind.stderr => finalErr))).map
        (fun l => String.mk (ansiStrip l)) := by
  constructor
  · rfl
  · intro k
    have hl := runLoop_proj sched [] [] [] (by simp) (by simp)
    simp only [runModel]
    rw [List.filter_append, List.filter_append, List.map_append, List.map_append]
    rw [hl.1 k, hl.2.1, hl.2.2]
    rcases k with _ | _
    · rw [flushFilter_self StreamKind.stdout _ _ (splitNl_noNl _),
        flushFilter_ne StreamKind.stdout StreamKind.stderr _ _ (by simp)]
      rw [splitNl_append (bytesOf StreamKind.stdout sched) finalOut]
      simp [List.map_append]
    · rw [flushFilter_ne StreamKind.stderr StreamKind.stdout _ _ (by simp),
        flushFilter_self StreamKind.stderr _ _ (splitNl_noNl _)]
      rw [splitNl_append (bytesOf StreamKind.stderr sched) finalErr]
      simp [List.map_append]

/-! ## C4: what the Builder substitutes for a live dependency -/

/-- C4 counterexample: the Builder substitutes the stored `tag` field of the
dependency (`_get_tag`), not the tag the recursive template resolution
yields: for a dependency `d` with a pending template, the rewritten line
pins `d`'s stale stored tag while the resolver yields the fresh one. -/
theorem C4_counterexample :
    dfSub (format_from
        [("d", { tag := "old", tag_tmpl := some "\x7bimage.e\x7d" }),
         ("e", { tag := "new" }),
         ("app", { workdir := some "wd", depends_on := [("d", DepVal.live)] })]
        { workdir := some "wd", depends_on := [("d", DepVal.live)] })
      true "FROM d\n".data = "FROM d:old\n".data ∧
    getTmplTag
      [("d", { tag := "old", tag_tmpl := some "\x7bimage.e\x7d" }),
       ("e", { tag := "new" }),
       ("app", { workdir := some "wd", depends_on := [("d", DepVal.live)] })]
      "d" = RTag.ok "new" [("d", "new"), ("e", "new")] ∧
    ("old" : String) ≠ "new" := by
  refine ⟨by decide, by decide, by decide⟩

/-- C4 amended: the Builder's rewrite substitutes, for a live dependency
that is present in the images table (`_get_info`'s assertion — an absent
one raises `AssertionError`), the dependency's stored `tag` field; a pinned
value is substituted literally, and a reference whose alias is absent from
`depends_on` leaves the matched text unchanged.  The substituted tag
coincides with the resolver's output whenever the dependency has no tag
template (its stored tag is then what resolution returns). -/
theorem C4_amended (cfg : Cfg) (info : ImageInfo) (g0 g1 : List Char)
    (g2 : Char) (al : String)
    (hal : (dictGet (imageToAlias cfg) (String.mk g1)).getD (String.mk g1) = al) :
    (dictGet info.depends_on al = none → format_from cfg info g0 g1 g2 = g0) ∧
    (∀ t, dictGet info.depends_on al = some (DepVal.pin t) →
      format_from cfg info g0 g1 g2 =
        "FROM ".data ++ g1 ++ ':' :: t.data ++ [g2]) ∧
    (dictGet info.depends_on al = some DepVal.live →
      ∀ i, dictGet cfg al = some i →
        format_from cfg info g0 g1 g2 =
          "FROM ".data ++ g1 ++ ':' :: i.tag.data ++ [g2]) ∧
    (dictGet info.depends_on al = some DepVal.live →
      ∀ i tag cache, dictGet cfg al = some i → i.tag_tmpl = none →
        getTmplTag cfg al = RTag.ok tag cache →
        format_from cfg info g0 g1 g2 =
          "FROM ".data ++ g1 ++ ':' :: tag.data ++ [g2]) := by
  refine ⟨?_, ?_, ?_, ?_⟩
  · intro hd
    simp only [format_from, hal, hd]
  · intro t hd
    simp only [format_from, hal, hd]
  · intro hd i hi
    simp only [format_from, hal, hd, get_tag, hi, Option.getD_some]
  · intro hd i tag cache hi htm hres
    simp only [getTmplTag, getTmplTagRec, dictGet, hi, htm] at hres
    simp only [format_from, hal, hd, get_tag, hi, Option.getD_some]
    have htag : i.tag = tag := by
      cases hres
      rfl
    rw [htag]

/-- Witness for C4 amended: a single live dependency, present in the table,
without a template. -/
theorem C4_amended_witness :
    ((dictGet (imageToAlias [("d", ({ tag := "1" } : ImageInfo))])
      (String.mk "d".data)).getD (String.mk "d".data) = "d") ∧
    (dictGet ([("d", DepVal.live)] : List (String × DepVal)) "d" =
      some DepVal.live) ∧
    (dictGet [("d", ({ tag := "1" } : ImageInfo))] "d" =
      some ({ tag := "1" } : ImageInfo)) ∧
    format_from [("d", { tag := "1" })] { depends_on := [("d", DepVal.live)] }
        "FROM d\n".data "d".data '\n' =
      "FROM ".data ++ "d".data ++ ':' ::
        ({ tag := "1" } : ImageInfo).tag.data ++ ['\n'] := by
  refine ⟨by decide, by decide, by decide, ?_⟩
  exact (C4_amended [("d", { tag := "1" })] { depends_on := [("d", DepVal.live)] }
    "FROM d\n".data "d".data '\n' "d" (by decide)).2.2.1 (by decide)
    { tag := "1" } (by decide)

theorem dictGet_nil {α : Type} (k : String) :
    dictGet ([] : List (String × α)) k = none := rfl

theorem reachRankLe (cfg : Cfg) (al0 : String) (rk : String → Nat)
    (hrk : ∀ a b, Reach cfg al0 a → refStep cfg a b → rk b < rk a)
    {x y : String} (hx : Reach cfg al0 x) (hxy : Reach cfg x y) :
    rk y ≤ rk x := by
  induction hxy with
  | refl => exact le_rfl
  | tail hab hbc ih =>
    exact le_trans (le_of_lt (hrk _ _ (Relation.ReflTransGen.trans hx hab) hbc)) ih

theorem scanAgrees (cfg : Cfg) (info : ImageInfo) (S : String → Prop)
    (fuel : Nat) (Gd : String → Prop)
    (hres : ∀ g, Gd g → ∀ cache, cm cfg cache < fuel →
      (∀ k v, dictGet cache k = some v → S k ∨ tagOf cfg k = some v) →
      ((tagOf cfg g = none → getTmplTagRec cfg fuel cache g = RTag.assertFail) ∧
       (∀ t, tagOf cfg g = some t → ∃ cache2,
         getTmplTagRec cfg fuel cache g = RTag.ok t cache2 ∧
         (∀ k v, dictGet cache2 k = some v → S k ∨ tagOf cfg k = some v) ∧
         (∀ k, dictGet cache k ≠ none → dictGet cache2 k ≠ none)))) :
    ∀ m s cache, s.length ≤ m → cm cfg cache < fuel →
      (∀ k v, dictGet cache k = some v → S k ∨ tagOf cfg k = some v) →
      (∀ g, g ∈ liveRefsGo info m s → Gd g) →
      ((specSubstGo cfg info m s = none →
        imgSubGo (fun c2 a2 => getTmplTagRec cfg fuel c2 a2) info m cache s =
          RSub.assertFail) ∧
       (∀ out, specSubstGo cfg info m s = some out → ∃ cache2,
         imgSubGo (fun c2 a2 => getTmplTagRec cfg fuel c2 a2) info m cache s =
           RSub.ok out cache2 ∧
         (∀ k v, dictGet cache2 k = some v → S k ∨ tagOf cfg k = some v) ∧
         (∀ k, dictGet cache k ≠ none → dictGet cache2 k ≠ none))) := by
  intro m
  induction m with
  | zero =>
    intro s cache hlen hcm hcoh href
    have hs : s = [] := List.eq_nil_of_length_eq_zero (Nat.le_zero.mp hlen)
    subst hs
    constructor
    · intro hnone
      simp [specSubstGo] at hnone
    · intro out hout
      simp [specSubstGo] at hout
      subst hout
      exact ⟨cache, by simp [imgSubGo], hcoh, fun k hk => hk⟩
  | succ mm ihm =>
    intro s cache hlen hcm hcoh href
    match s with
    | [] =>
      constructor
      · intro hnone
        simp [specSubstGo] at hnone
      · intro out hout
        simp [specSubstGo] at hout
        subst hout
        exact ⟨cache, by simp [imgSubGo], hcoh, fun k hk => hk⟩
    | c :: rest =>
      rcases hmt : imgMatch (c :: rest) with _ | ⟨g, r⟩
      · have hlen' : rest.length ≤ mm := by
          simp at hlen
          omega
        have href' : ∀ g2, g2 ∈ liveRefsGo info mm rest → Gd g2 := by
          intro g2 hg2
          refine href g2 ?_
          simp only [liveRefsGo, hmt]
          exact hg2
        have hr := ihm rest cache hlen' hcm hcoh href'
        constructor
        · intro hnone
          simp only [specSubstGo, hmt] at hnone
          rcases hss : specSubstGo cfg info mm rest with _ | out2
          · simp only [imgSubGo, hmt, hr.1 hss]
          · rw [hss] at hnone
            simp at hnone
        · intro out hout
          simp only [specSubstGo, hmt] at hout
          rcases hss : specSubstGo cfg info mm rest with _ | out2
          · rw [hss] at hout
            simp at hout
          · rw [hss] at hout
            simp at hout
            obtain ⟨cache2, hrec, hcoh2, hmono2⟩ := hr.2 out2 hss
            refine ⟨cache2, ?_, hcoh2, hmono2⟩
            simp only [imgSubGo, hmt, hrec]
            rw [hout]
      · have hrlen : r.length ≤ mm := by
          have h2 := imgMatch_length hmt
          simp only [List.length_cons] at h2 hlen
          omega
        rcases hd : dictGet info.depends_on (String.mk g) with _ | v
        · have hGd : Gd (String.mk g) := by
            refine href _ ?_
            simp only [liveRefsGo, hmt, hd]
            exact List.mem_cons_self _ _
          have href' : ∀ g2, g2 ∈ liveRefsGo info mm r → Gd g2 := by
            intro g2 hg2
            refine href g2 ?_
            simp only [liveRefsGo, hmt, hd]
            exact List.mem_cons_of_mem _ hg2
          have hgres := hres (String.mk g) hGd cache hcm hcoh
          rcases htg : tagOf cfg (String.mk g) with _ | t
          · constructor
            · intro _
              simp only [imgSubGo, hmt, hd, hgres.1 htg]
            · intro out hout
              simp only [specSubstGo, hmt, hd, htg] at hout
              exact absurd hout (by simp)
          · obtain ⟨cache2, hrec, hcoh2, hmono2⟩ := hgres.2 t htg
            have hcm2 : cm cfg cache2 < fuel :=
              lt_of_le_of_lt (cm_le_of_preserve cfg cache cache2 hmono2) hcm
            have hr := ihm r cache2 hrlen hcm2 hcoh2 href'
            rcases hss : specSubstGo cfg info mm r with _ | out2
            · constructor
              · intro _
                simp only [imgSubGo, hmt, hd, hrec, hr.1 hss]
              · intro out hout
                simp only [specSubstGo, hmt, hd, htg, hss] at hout
                exact absurd hout (by simp)
            · constructor
              · intro hnone
                simp only [specSubstGo, hmt, hd, htg, hss] at hnone
                exact absurd hnone (by simp)
              · intro out hout
                simp only [specSubstGo, hmt, hd, htg, hss] at hout
                simp at hout
                obtain ⟨cache3, hrec2, hcoh3, hmono3⟩ := hr.2 out2 hss
                refine ⟨cache3, ?_, hcoh3, fun k hk => hmono3 k (hmono2 k hk)⟩
                simp only [imgSubGo, hmt, hd, hrec, hrec2]
                rw [hout]
        · rcases v with _ | t0
          · have hGd : Gd (String.mk g) := by
              refine href _ ?_
              simp only [liveRefsGo, hmt, hd]
              exact List.mem_cons_self _ _
            have href' : ∀ g2, g2 ∈ liveRefsGo info mm r → Gd g2 := by
              intro g2 hg2
              refine href g2 ?_
              simp only [liveRefsGo, hmt, hd]
              exact List.mem_cons_of_mem _ hg2
            have hgres := hres (String.mk g) hGd cache hcm hcoh
            rcases htg : tagOf cfg (String.mk g) with _ | t
            · constructor
              · intro _
                simp only [imgSubGo, hmt, hd, hgres.1 htg]
              · intro out hout
                simp only [specSubstGo, hmt, hd, htg] at hout
                exact absurd hout (by simp)
            · obtain ⟨cache2, hrec, hcoh2, hmono2⟩ := hgres.2 t htg
              have hcm2 : cm cfg cache2 < fuel :=
                lt_of_le_of_lt (cm_le_of_preserve cfg cache cache2 hmono2) hcm
              have hr := ihm r cache2 hrlen hcm2 hcoh2 href'
              rcases hss : specSubstGo cfg info mm r with _ | out2
              · constructor
                · intro _
                  simp only [imgSubGo, hmt, hd, hrec, hr.1 hss]
                · intro out hout
                  simp only [specSubstGo, hmt, hd, htg, hss] at hout
                  exact absurd hout (by simp)
              · constructor
                · intro hnone
                  simp only [specSubstGo, hmt, hd, htg, hss] at hnone
                  exact absurd hnone (by simp)
                · intro out hout
                  simp only [specSubstGo, hmt, hd, htg, hss] at hout
                  simp at hout
                  obtain ⟨cache3, hrec2, hcoh3, hmono3⟩ := hr.2 out2 hss
                  refine ⟨cache3, ?_, hcoh3, fun k hk => hmono3 k (hmono2 k hk)⟩
                  simp only [imgSubGo, hmt, hd, hrec, hrec2]
                  rw [hout]
          · have href' : ∀ g2, g2 ∈ liveRefsGo info mm r → Gd g2 := by
              intro g2 hg2
              refine href g2 ?_
              simp only [liveRefsGo, hmt, hd]
              exact hg2
            have hr := ihm r cache hrlen hcm hcoh href'
            rcases hss : specSubstGo cfg info mm r with _ | out2
            · constructor
              · intro _
                simp only [imgSubGo, hmt, hd, hr.1 hss]
              · intro out hout
                simp only [specSubstGo, hmt, hd, hss] at hout
                exact absurd hout (by simp)
            · constructor
              · intro hnone
                simp only [specSubstGo, hmt, hd, hss] at hnone
                exact absurd hnone (by simp)
              · intro out hout
                simp only [specSubstGo, hmt, hd, hss] at hout
                simp at hout
                obtain ⟨cache2, hrec, hcoh2, hmono2⟩ := hr.2 out2 hss
                refine ⟨cache2, ?_, hcoh2, hmono2⟩
                simp only [imgSubGo, hmt, hd, hrec]
                rw [hout]

theorem resolveSpecAux (cfg : Cfg) (al0 : String) (rk : String → Nat)
    (hrk : ∀ a b, Reach cfg al0 a → refStep cfg a b → rk b < rk a) :
    ∀ n a, rk a < n → Reach cfg al0 a →
    ∀ fuel cache (S : String → Prop),
      cm cfg cache < fuel →
      (∀ k v, dictGet cache k = some v → S k ∨ tagOf cfg k = some v) →
      (∀ y, Reach cfg a y → ¬ S y) →
      ((tagOf cfg a = none → getTmplTagRec cfg fuel cache a = RTag.assertFail) ∧
       (∀ t, tagOf cfg a = some t → ∃ cache2,
         getTmplTagRec cfg fuel cache a = RTag.ok t cache2 ∧
         (∀ k v, dictGet cache2 k = some v → S k ∨ tagOf cfg k = some v) ∧
         (∀ k, dictGet cache k ≠ none → dictGet cache2 k ≠ none))) := by
  intro n
  induction n with
  | zero =>
    intro a han
    omega
  | succ n ihn =>
    intro a han ha fuel cache S hcm hcoh havoid
    rcases fuel with _ | fuel
    · exact absurd hcm (by omega)
    rcases hc : dictGet cache a with _ | t0
    · rcases hcf : dictGet cfg a with _ | info
      · have htag : tagOf cfg a = none := by
          simp only [tagOf, getTmplTag, getTmplTagRec, dictGet_nil, hcf]
        constructor
        · intro _
          simp only [getTmplTagRec, hc, hcf]
        · intro t htt
          rw [htag] at htt
          exact absurd htt (by simp)
      · rcases ht : info.tag_tmpl with _ | tmpl
        · have htag : tagOf cfg a = some info.tag := by
            simp only [tagOf, getTmplTag, getTmplTagRec, dictGet_nil, hcf, ht]
          constructor
          · intro hnone
            rw [htag] at hnone
            exact absurd hnone (by simp)
          · intro t htt
            rw [htag] at htt
            have he : info.tag = t := Option.some.inj htt
            subst he
            refine ⟨dictPut cache a info.tag, ?_, ?_, ?_⟩
            · simp only [getTmplTagRec, hc, hcf, ht]
            · intro k v hkv
              by_cases hk : a = k
              · subst hk
                rw [dictGet_put_self] at hkv
                right
                rw [htag]
                exact congrArg some (Option.some.inj hkv)
              · rw [dictGet_put_ne _ _ _ _ hk] at hkv
                exact hcoh k v hkv
            · intro k hk
              exact dictGet_put_preserve cache a k info.tag hk
        · have hstep : ∀ g, g ∈ liveRefsGo info tmpl.data.length tmpl.data →
              refStep cfg a g := fun g hg => ⟨info, tmpl, hcf, ht, hg⟩
          have hresGen : ∀ (S2 : String → Prop),
              (∀ g, g ∈ liveRefsGo info tmpl.data.length tmpl.data →
                ∀ y, Reach cfg g y → ¬ S2 y) →
              ∀ g, g ∈ liveRefsGo info tmpl.data.length tmpl.data →
              ∀ fuel2 cache2, cm cfg cache2 < fuel2 →
              (∀ k v, dictGet cache2 k = some v → S2 k ∨ tagOf cfg k = some v) →
              ((tagOf cfg g = none →
                getTmplTagRec cfg fuel2 cache2 g = RTag.assertFail) ∧
               (∀ t, tagOf cfg g = some t → ∃ cache3,
                 getTmplTagRec cfg fuel2 cache2 g = RTag.ok t cache3 ∧
                 (∀ k v, dictGet cache3 k = some v → S2 k ∨ tagOf cfg k = some v) ∧
                 (∀ k, dictGet cache2 k ≠ none → dictGet cache3 k ≠ none))) := by
            intro S2 hav2 g hg fuel2 cache2 hcm2 hcoh2
            have hrg : rk g < n := by
              have h1 := hrk a g ha (hstep g hg)
              omega
            exact ihn g hrg (Relation.ReflTransGen.tail ha (hstep g hg)) fuel2 cache2
              S2 hcm2 hcoh2 (hav2 g hg)
          have havy : ∀ g, g ∈ liveRefsGo info tmpl.data.length tmpl.data →
              ∀ y, Reach cfg g y → y ≠ a := by
            intro g hg y hy hya
            subst hya
            have h1 : rk y ≤ rk g :=
              reachRankLe cfg al0 rk hrk (Relation.ReflTransGen.tail ha (hstep g hg)) hy
            have h2 : rk g < rk y := hrk y g ha (hstep g hg)
            omega
          have hcmF : cm cfg (dictPut [] a sentinel) < cfg.length := by
            have h1 := cm_put_lt cfg [] a sentinel info hcf (dictGet_nil a)
            have h2 : cm cfg [] ≤ cfg.length := by
              simp only [cm]
              exact List.length_filter_le _ _
            omega
          have hscanF := scanAgrees cfg info (fun k => k = a) cfg.length
            (fun g => g ∈ liveRefsGo info tmpl.data.length tmpl.data)
            (by
              intro g hg cache2 hcm2 hcoh2
              exact hresGen (fun k => k = a)
                (fun g2 hg2 y hy hya => havy g2 hg2 y hy hya) g hg cfg.length
                cache2 hcm2 hcoh2)
            tmpl.data.length tmpl.data (dictPut [] a sentinel) le_rfl hcmF
            (by
              intro k v hkv
              by_cases hk : a = k
              · exact Or.inl hk.symm
              · rw [dictGet_put_ne _ _ _ _ hk, dictGet_nil] at hkv
                exact absurd hkv (by simp))
            (fun g hg => hg)
          have hcmM : cm cfg (dictPut cache a sentinel) < fuel := by
            have h1 := cm_put_lt cfg cache a sentinel info hcf hc
            omega
          have hscanM := scanAgrees cfg info (fun k => S k ∨ k = a) fuel
            (fun g => g ∈ liveRefsGo info tmpl.data.length tmpl.data)
            (by
              intro g hg cache2 hcm2 hcoh2
              refine hresGen (fun k => S k ∨ k = a) ?_ g hg fuel cache2 hcm2 hcoh2
              intro g2 hg2 y hy hSy
              rcases hSy with hSy | hya
              · exact havoid y (Relation.ReflTransGen.head (hstep g2 hg2) hy) hSy
              · exact havy g2 hg2 y hy hya)
            tmpl.data.length tmpl.data (dictPut cache a sentinel) le_rfl hcmM
            (by
              intro k v hkv
              by_cases hk : a = k
              · exact Or.inl (Or.inr hk.symm)
              · rw [dictGet_put_ne _ _ _ _ hk] at hkv
                rcases hcoh k v hkv with hS | htg
                · exact Or.inl (Or.inl hS)
                · exact Or.inr htg)
            (fun g hg => hg)
          rcases hss : specSubstGo cfg info tmpl.data.length tmpl.data with _ | out
          · have htag : tagOf cfg a = none := by
              simp only [tagOf, getTmplTag, getTmplTagRec, dictGet_nil, hcf, ht,
                hscanF.1 hss]
            constructor
            · intro _
              simp only [getTmplTagRec, hc, hcf, ht, hscanM.1 hss]
            · intro t htt
              rw [htag] at htt
              exact absurd htt (by simp)
          · obtain ⟨cacheF, hFeq, hcF, hmF⟩ := hscanF.2 out hss
            have htag : tagOf cfg a = some (String.mk out) := by
              simp only [tagOf, getTmplTag, getTmplTagRec, dictGet_nil, hcf, ht, hFeq]
            obtain ⟨cache2, hMeq, hcoh2, hmono2⟩ := hscanM.2 out hss
            constructor
            · intro hnone
              rw [htag] at hnone
              exact absurd hnone (by simp)
            · intro t htt
              rw [htag] at htt
              have he : String.mk out = t := Option.some.inj htt
              subst he
              refine ⟨dictPut cache2 a (String.mk out), ?_, ?_, ?_⟩
              · simp only [getTmplTagRec, hc, hcf, ht, hMeq]
              · intro k v hkv
                by_cases hk : a = k
                · subst hk
                  rw [dictGet_put_self] at hkv
                  right
                  rw [htag]
                  exact congrArg some (Option.some.inj hkv)
                · rw [dictGet_put_ne _ _ _ _ hk] at hkv
                  rcases hcoh2 k v hkv with hS | htg
                  · rcases hS with hS | hka
                    · exact Or.inl hS
                    · exact absurd hka.symm hk
                  · exact Or.inr htg
              · intro k hk
                exact dictGet_put_preserve _ a k _
                  (hmono2 k (dictGet_put_preserve cache a k sentinel hk))
    · have hna : ¬ S a := havoid a Relation.ReflTransGen.refl
      have htag : tagOf cfg a = some t0 := by
        rcases hcoh a t0 hc with hS | htg
        · exact absurd hS hna
        · exact htg
      constructor
      · intro hnone
        rw [htag] at hnone
        exact absurd hnone (by simp)
      · intro t htt
        rw [htag] at htt
        have he : t0 = t := Option.some.inj htt
        subst he
        refine ⟨cache, ?_, hcoh, fun k hk => hk⟩
        simp only [getTmplTagRec, hc]

theorem tagOf_spec (cfg : Cfg) (al : String) (rk : String → Nat)
    (hrk : ∀ a b, Reach cfg al a → refStep cfg a b → rk b < rk a)
    (info : ImageInfo) (tmpl : String)
    (hcf : dictGet cfg al = some info) (ht : info.tag_tmpl = some tmpl) :
    tagOf cfg al =
      (specSubstGo cfg info tmpl.data.length tmpl.data).map String.mk := by
  have hstep : ∀ g, g ∈ liveRefsGo info tmpl.data.length tmpl.data →
      refStep cfg al g := fun g hg => ⟨info, tmpl, hcf, ht, hg⟩
  have havy : ∀ g, g ∈ liveRefsGo info tmpl.data.length tmpl.data →
      ∀ y, Reach cfg g y → y ≠ al := by
    intro g hg y hy hya
    rw [hya] at hy
    have h1 : rk al ≤ rk g :=
      reachRankLe cfg al rk hrk (Relation.ReflTransGen.single (hstep g hg)) hy
    have h2 : rk g < rk al := hrk al g Relation.ReflTransGen.refl (hstep g hg)
    omega
  have hcmF : cm cfg (dictPut [] al sentinel) < cfg.length := by
    have h1 := cm_put_lt cfg [] al sentinel info hcf (dictGet_nil al)
    have h2 : cm cfg [] ≤ cfg.length := by
      simp only [cm]
      exact List.length_filter_le _ _
    omega
  have hscanF := scanAgrees cfg info (fun k => k = al) cfg.length
    (fun g => g ∈ liveRefsGo info tmpl.data.length tmpl.data)
    (by
      intro g hg cache2 hcm2 hcoh2
      exact resolveSpecAux cfg al rk hrk (rk g + 1) g (Nat.lt_succ_self _)
        (Relation.ReflTransGen.single (hstep g hg)) cfg.length cache2
        (fun k => k = al) hcm2 hcoh2 (fun y hy hya => havy g hg y hy hya))
    tmpl.data.length tmpl.data (dictPut [] al sentinel) le_rfl hcmF
    (by
      intro k v hkv
      by_cases hk : al = k
      · exact Or.inl hk.symm
      · rw [dictGet_put_ne _ _ _ _ hk, dictGet_nil] at hkv
        exact absurd hkv (by simp))
    (fun g hg => hg)
  rcases hss : specSubstGo cfg info tmpl.data.length tmpl.data with _ | out
  · simp only [tagOf, getTmplTag, getTmplTagRec, dictGet_nil, hcf, ht,
      hscanF.1 hss, Option.map_none']
  · obtain ⟨cacheF, hFeq, hcF, hmF⟩ := hscanF.2 out hss
    simp only [tagOf, getTmplTag, getTmplTagRec, dictGet_nil, hcf, ht, hFeq,
      Option.map_some']

/-- C5: on a table whose template references are non-cyclic (witnessed by a
rank function strictly decreasing along template references reachable from
the query alias), resolution is exact placeholder substitution: an alias
without a template resolves to its stored literal tag, and a templated
alias resolves to the pure substitution of its template, in which a pinned
placeholder becomes the pin literal and any other placeholder the
recursively resolved tag of its alias.  In particular the dashed
two-placeholder template over aliases tagged "1.0" and "2.0" resolves to
"1.0-2.0". -/
theorem C5_resolver_substitution (cfg : Cfg) (al : String) (rk : String → Nat)
    (hrk : ∀ a b, Reach cfg al a → refStep cfg a b → rk b < rk a) :
    (∀ info, dictGet cfg al = some info → info.tag_tmpl = none →
      getTmplTag cfg al = RTag.ok info.tag (dictPut [] al info.tag)) ∧
    (∀ info tmpl, dictGet cfg al = some info → info.tag_tmpl = some tmpl →
      ∀ out, specSubstGo cfg info tmpl.data.length tmpl.data = some out →
        ∃ cache, getTmplTag cfg al = RTag.ok (String.mk out) cache) ∧
    getTmplTag [("x", { tag_tmpl := some "\x7bimage.a\x7d-\x7bimage.b\x7d" }),
        ("a", { tag := "1.0" }), ("b", { tag := "2.0" })] "x" =
      RTag.ok "1.0-2.0" [("x", "1.0-2.0"), ("a", "1.0"), ("b", "2.0")] := by
  refine ⟨?_, ?_, by decide⟩
  · intro info hcf ht
    simp only [getTmplTag, getTmplTagRec, dictGet_nil, hcf, ht]
  · intro info tmpl hcf ht out hout
    have htag : tagOf cfg al = some (String.mk out) := by
      rw [tagOf_spec cfg al rk hrk info tmpl hcf ht, hout]
      rfl
    have hmain := (resolveSpecAux cfg al rk hrk (rk al + 1) al (Nat.lt_succ_self _)
      Relation.ReflTransGen.refl (cfg.length + 1) [] (fun _ => False)
      (by
        have h2 : cm cfg [] ≤ cfg.length := by
          simp only [cm]
          exact List.length_filter_le _ _
        omega)
      (fun k v hkv => absurd hkv (by simp [dictGet_nil]))
      (fun y hy hF => hF)).2 (String.mk out) htag
    obtain ⟨cache2, heq, hcoh2, hmono2⟩ := hmain
    exact ⟨cache2, heq⟩

theorem C5rk_dec (a b : String) (h : refStep C5cfg a b) : C5rk b < C5rk a := by
  obtain ⟨info, tmpl, hcf, ht, hb⟩ := h
  by_cases h1 : a = "x"
  · subst h1
    have hx : dictGet C5cfg "x" =
        some ({ tag_tmpl := some "\x7bimage.a\x7d-\x7bimage.b\x7d" } : ImageInfo) := by
      decide
    rw [hx] at hcf
    have hi : info = { tag_tmpl := some "\x7bimage.a\x7d-\x7bimage.b\x7d" } :=
      (Option.some.inj hcf).symm
    subst hi
    simp at ht
    rw [← ht] at hb
    have he : liveRefsGo
        ({ tag_tmpl := some "\x7bimage.a\x7d-\x7bimage.b\x7d" } : ImageInfo)
        ("\x7bimage.a\x7d-\x7bimage.b\x7d" : String).data.length
        ("\x7bimage.a\x7d-\x7bimage.b\x7d" : String).data = ["a", "b"] := by decide
    rw [he] at hb
    simp at hb
    rcases hb with hb | hb <;> subst hb <;> decide
  · by_cases h2 : a = "a"
    · subst h2
      have hx : dictGet C5cfg "a" = some ({ tag := "1.0" } : ImageInfo) := by decide
      rw [hx] at hcf
      have hi : info = { tag := "1.0" } := (Option.some.inj hcf).symm
      subst hi
      simp at ht
    · by_cases h3 : a = "b"
      · subst h3
        have hx : dictGet C5cfg "b" = some ({ tag := "2.0" } : ImageInfo) := by decide
        rw [hx] at hcf
        have hi : info = { tag := "2.0" } := (Option.some.inj hcf).symm
        subst hi
        simp at ht
      · have hx : dictGet C5cfg a = none := by
          simp only [C5cfg, dictGet]
          rw [if_neg (fun hh => h1 hh.symm), if_neg (fun hh => h2 hh.symm),
            if_neg (fun hh => h3 hh.symm)]
        rw [hx] at hcf
        exact absurd hcf (by simp)

/-- Witness for C5 at the three-alias example table. -/
theorem C5_resolver_substitution_witness :
    (∀ a b, Reach C5cfg "x" a → refStep C5cfg a b → C5rk b < C5rk a) ∧
    (∃ cache, getTmplTag C5cfg "x" = RTag.ok (String.mk "1.0-2.0".data) cache) := by
  refine ⟨fun a b _ h => C5rk_dec a b h, ?_⟩
  exact (C5_resolver_substitution C5cfg "x" C5rk (fun a b _ h => C5rk_dec a b h)).2.1
    { tag_tmpl := some "\x7bimage.a\x7d-\x7bimage.b\x7d" }
    "\x7bimage.a\x7d-\x7bimage.b\x7d" (by decide) rfl "1.0-2.0".data (by decide)

theorem mem_dependents {cfg : Cfg} {n x : String × Bool} :
    x ∈ dependents cfg n ↔ (n.2 = true ∧ x.2 = true ∧ depends cfg n.1 x.1) := by
  constructor
  · intro h
    rcases hn : n.2 with _ | _
    · rw [dependents, hn] at h
      simp at h
    · rw [dependents, hn] at h
      simp only [if_true, List.mem_map, List.mem_filter] at h
      obtain ⟨e, ⟨he, hd⟩, hx⟩ := h
      refine ⟨rfl, ?_, ?_⟩
      · rw [← hx]
      · exact ⟨e, he, by rw [← hx], of_decide_eq_true hd⟩
  · intro ⟨hn, hx, e, he, heb, hed⟩
    rw [dependents, hn]
    simp only [if_true, List.mem_map, List.mem_filter]
    refine ⟨e, ⟨he, by simp [hed]⟩, ?_⟩
    rw [heb, ← hx]

theorem bridgeFwd {cfg : Cfg} {a : String} {x : String × Bool}
    (h : RelN cfg (a, true) x) : x.2 = true ∧ ReachLive cfg a x.1 := by
  induction h with
  | refl => exact ⟨rfl, Relation.ReflTransGen.refl⟩
  | tail hyx hstep ih =>
    have hm := mem_dependents.mp hstep
    exact ⟨hm.2.1, Relation.ReflTransGen.tail ih.2 hm.2.2⟩

theorem bridgeBack {cfg : Cfg} {a b : String} (h : ReachLive cfg a b) :
    RelN cfg (a, true) (b, true) := by
  induction h with
  | refl => exact Relation.ReflTransGen.refl
  | tail hyx hstep ih =>
    exact Relation.ReflTransGen.tail ih (mem_dependents.mpr ⟨rfl, rfl, hstep⟩)

theorem relNRankLe (cfg : Cfg) (start : String × Bool) (rkN : String × Bool → Nat)
    (hrk : ∀ a b, RelN cfg start a → b ∈ dependents cfg a → rkN b < rkN a)
    {x y : String × Bool} (hx : RelN cfg start x) (hxy : RelN cfg x y) :
    rkN y ≤ rkN x := by
  induction hxy with
  | refl => exact le_rfl
  | tail hab hbc ih =>
    exact le_trans (le_of_lt (hrk _ _ (Relation.ReflTransGen.trans hx hab) hbc)) ih

theorem tm_mono (cfg : Cfg) (vis vis2 : List (String × Bool))
    (h : ∀ x, x ∈ vis → x ∈ vis2) : tm cfg vis2 ≤ tm cfg vis := by
  refine filterLenMono _ _ _ (fun e he => ?_)
  simp only [Bool.not_eq_true', decide_eq_false_iff_not] at he ⊢
  exact fun hc => he (h _ hc)

theorem tm_lt (cfg : Cfg) (vis : List (String × Bool)) (c : String × Bool)
    (e : String × ImageInfo) (he : e ∈ cfg) (hev : (e.1, true) = c)
    (hc : c ∉ vis) : tm cfg (c :: vis) < tm cfg vis := by
  induction cfg with
  | nil => simp at he
  | cons e2 rest ih =>
    rcases List.mem_cons.mp he with he2 | he2
    · subst he2
      simp only [tm, List.filter_cons]
      have hold : (!(decide ((e.1, true) ∈ vis))) = true := by
        rw [hev]
        simp [hc]
      have hnew : (!(decide ((e.1, true) ∈ c :: vis))) = false := by
        rw [hev]
        simp
      have hmono : ((rest.filter (fun e2 => !(decide ((e2.1, true) ∈ c :: vis)))).length ≤
          (rest.filter (fun e2 => !(decide ((e2.1, true) ∈ vis)))).length) := by
        refine filterLenMono _ _ _ (fun e3 he3 => ?_)
        simp only [Bool.not_eq_true', decide_eq_false_iff_not] at he3 ⊢
        intro hc3
        exact he3 (List.mem_cons_of_mem _ hc3)
      rw [hold, hnew]
      simp at hmono ⊢
      omega
    · have ihr := ih he2
      simp only [tm, List.filter_cons]
      simp only [tm] at ihr
      by_cases h3 : ((e2.1, true) : String × Bool) ∈ c :: vis
      · have hnew : (!(decide ((e2.1, true) ∈ c :: vis))) = false := by simp [h3]
        rw [hnew]
        by_cases h2 : ((e2.1, true) : String × Bool) ∈ vis
        · have hold : (!(decide ((e2.1, true) ∈ vis))) = false := by simp [h2]
          rw [hold]
          simp at ihr ⊢
          omega
        · have hold : (!(decide ((e2.1, true) ∈ vis))) = true := by simp [h2]
          rw [hold]
          simp at ihr ⊢
          omega
      · have h2 : ((e2.1, true) : String × Bool) ∉ vis :=
          fun hh => h3 (List.mem_cons_of_mem _ hh)
        have hnew : (!(decide ((e2.1, true) ∈ c :: vis))) = true := by simp [h3]
        have hold : (!(decide ((e2.1, true) ∈ vis))) = true := by simp [h2]
        rw [hnew, hold]
        simp at ihr ⊢
        omega

theorem tm_le (cfg : Cfg) (vis : List (String × Bool)) : tm cfg vis ≤ cfg.length :=
  List.length_filter_le _ _

theorem pos_cons_self {α : Type} [DecidableEq α] (a : α) (t : List α) :
    pos (a :: t) a = 0 := by simp [pos]

theorem pos_cons_ne {α : Type} [DecidableEq α] {a b : α} (t : List α) (h : a ≠ b) :
    pos (b :: t) a = pos t a + 1 := by simp [pos, h]

theorem posAppMem {α : Type} [DecidableEq α] {l1 : List α} (l2 : List α) {a : α}
    (h : a ∈ l1) : pos (l1 ++ l2) a = pos l1 a := by
  induction l1 with
  | nil => simp at h
  | cons b t ih =>
    by_cases hab : a = b
    · subst hab
      simp [pos]
    · rcases List.mem_cons.mp h with h1 | h1
      · exact absurd h1 hab
      · simp only [List.cons_append]
        rw [pos_cons_ne _ hab, pos_cons_ne _ hab, ih h1]

theorem posAppNot {α : Type} [DecidableEq α] {l1 : List α} (l2 : List α) {a : α}
    (h : a ∉ l1) : pos (l1 ++ l2) a = l1.length + pos l2 a := by
  induction l1 with
  | nil => simp
  | cons b t ih =>
    have hab : a ≠ b := fun he => h (he ▸ List.mem_cons_self b t)
    simp only [List.cons_append, List.length_cons]
    rw [pos_cons_ne _ hab, ih (fun hh => h (List.mem_cons_of_mem _ hh))]
    omega

theorem pos_lt_length {α : Type} [DecidableEq α] {l : List α} {a : α}
    (h : a ∈ l) : pos l a < l.length := by
  induction l with
  | nil => simp at h
  | cons b t ih =>
    by_cases hab : a = b
    · subst hab
      simp [pos]
    · rcases List.mem_cons.mp h with h1 | h1
      · exact absurd h1 hab
      · rw [pos_cons_ne _ hab]
        simp only [List.length_cons]
        exact Nat.succ_lt_succ (ih h1)

theorem revSplit {α : Type} [DecidableEq α] (l : List α) (x y : α)
    (hx : x ∈ l) (hy : y ∈ l) (hlt : pos l y < pos l x) :
    ∃ l1 l2, l.reverse = l1 ++ x :: l2 ∧ y ∈ l2 := by
  induction l with
  | nil => simp at hx
  | cons a t ih =>
    by_cases hxa : x = a
    · subst hxa
      rw [pos_cons_self] at hlt
      omega
    · have hxt : x ∈ t := by
        rcases List.mem_cons.mp hx with h | h
        · exact absurd h hxa
        · exact h
      rw [pos_cons_ne _ hxa] at hlt
      by_cases hya : y = a
      · subst hya
        obtain ⟨m1, m2, hm⟩ := List.append_of_mem (List.mem_reverse.mpr hxt)
        refine ⟨m1, m2 ++ [y], ?_, by simp⟩
        simp only [List.reverse_cons, hm]
        simp
      · have hyt : y ∈ t := by
          rcases List.mem_cons.mp hy with h | h
          · exact absurd h hya
          · exact h
        rw [pos_cons_ne _ hya] at hlt
        obtain ⟨m1, m2, hm, hym⟩ := ih hxt hyt (by omega)
        refine ⟨m1, m2 ++ [a], ?_, List.mem_append_left _ hym⟩
        simp only [List.reverse_cons, hm]
        simp

theorem depShape {cfg : Cfg} {x n1 : String × Bool} (hx : x ∈ dependents cfg n1) :
    ∃ e, e ∈ cfg ∧ (e.1, true) = x := by
  obtain ⟨hn1, hx2, e, he, heb, hed⟩ := mem_dependents.mp hx
  exact ⟨e, he, Prod.ext heb hx2.symm⟩

theorem tsortAux (cfg : Cfg) (start : String × Bool) (rkN : String × Bool → Nat)
    (hrk : ∀ a b, RelN cfg start a → b ∈ dependents cfg a → rkN b < rkN a) :
    ∀ (fuel : Nat) (vis res st : List (String × Bool)) (n : String × Bool),
      tm cfg (n :: vis) < fuel →
      n ∉ vis →
      RelN cfg start n →
      (∀ x : String × Bool, x ∈ vis ↔ (x ∈ res ∨ x ∈ st)) →
      res.Nodup →
      (∀ x, x ∈ st → x ∉ res) →
      (∀ u v, u ∈ res → v ∈ dependents cfg u →
        (v ∈ st ∨ (v ∈ res ∧ pos res v < pos res u))) →
      (∀ u, u ∈ vis → u ∉ st → ∀ v, v ∈ dependents cfg u → v ∈ vis) →
      ∀ vis2 res2, tsortGo cfg fuel vis res n = (vis2, res2) →
      ((∀ x, x ∈ n :: vis → x ∈ vis2) ∧
       (∀ x, x ∈ vis2 → x ∈ vis ∨ RelN cfg n x) ∧
       (∃ δ, res2 = res ++ δ ∧ ∀ d, d ∈ δ → d ∉ vis ∧ RelN cfg n d) ∧
       (∀ x, x ∈ vis2 ↔ (x ∈ res2 ∨ x ∈ st)) ∧
       res2.Nodup ∧
       (∀ x, x ∈ st → x ∉ res2) ∧
       (∀ u v, u ∈ res2 → v ∈ dependents cfg u →
         (v ∈ st ∨ (v ∈ res2 ∧ pos res2 v < pos res2 u))) ∧
       (∀ u, u ∈ vis2 → u ∉ st → ∀ v, v ∈ dependents cfg u → v ∈ vis2)) := by
  intro fuel
  induction fuel with
  | zero =>
    intro vis res st n htm
    omega
  | succ fuel ih =>
    intro vis res st n htm hnvis hreach hpart hnodup hdisj hord hclos
    have Q : ∀ (cs : List (String × Bool)) (vis0 res0 : List (String × Bool)),
        tm cfg vis0 < fuel + 1 →
        (∀ c, c ∈ cs → (∃ e, e ∈ cfg ∧ (e.1, true) = c) ∧ RelN cfg start c) →
        (∀ x : String × Bool, x ∈ vis0 ↔ (x ∈ res0 ∨ x ∈ n :: st)) →
        res0.Nodup →
        (∀ x, x ∈ n :: st → x ∉ res0) →
        (∀ u v, u ∈ res0 → v ∈ dependents cfg u →
          (v ∈ n :: st ∨ (v ∈ res0 ∧ pos res0 v < pos res0 u))) →
        (∀ u, u ∈ vis0 → u ∉ n :: st → ∀ v, v ∈ dependents cfg u → v ∈ vis0) →
        ∀ W T, tsortKids (tsortGo cfg fuel) vis0 res0 cs = (W, T) →
        ((∀ x, x ∈ vis0 → x ∈ W) ∧
         (∀ x, x ∈ W → x ∈ vis0 ∨ ∃ c, c ∈ cs ∧ RelN cfg c x) ∧
         (∃ δ, T = res0 ++ δ ∧
           ∀ d, d ∈ δ → d ∉ vis0 ∧ ∃ c, c ∈ cs ∧ RelN cfg c d) ∧
         (∀ x, x ∈ W ↔ (x ∈ T ∨ x ∈ n :: st)) ∧
         T.Nodup ∧
         (∀ x, x ∈ n :: st → x ∉ T) ∧
         (∀ u v, u ∈ T → v ∈ dependents cfg u →
           (v ∈ n :: st ∨ (v ∈ T ∧ pos T v < pos T u))) ∧
         (∀ u, u ∈ W → u ∉ n :: st → ∀ v, v ∈ dependents cfg u → v ∈ W) ∧
         (∀ c, c ∈ cs → c ∈ W)) := by
      intro cs
      induction cs with
      | nil =>
        intro vis0 res0 htm0 hcs hpart0 hnodup0 hdisj0 hord0 hclos0 W T hK
        simp only [tsortKids] at hK
        cases hK
        refine ⟨fun x hx => hx, fun x hx => Or.inl hx,
          ⟨[], by simp, by simp⟩, hpart0, hnodup0, hdisj0, hord0, hclos0,
          fun c hc => absurd hc (List.not_mem_nil c)⟩
      | cons c cs2 ihq =>
        intro vis0 res0 htm0 hcs hpart0 hnodup0 hdisj0 hord0 hclos0 W T hK
        simp only [tsortKids] at hK
        by_cases hcv : c ∈ vis0
        · rw [if_pos hcv] at hK
          obtain ⟨r1, r2, ⟨δ2, hδ2eq, hδ2⟩, r4, r5, r6, r7, r8, r9⟩ :=
            ihq vis0 res0 htm0
              (fun c2 hc2 => hcs c2 (List.mem_cons_of_mem _ hc2)) hpart0 hnodup0
              hdisj0 hord0 hclos0 W T hK
          refine ⟨r1, ?_, ?_, r4, r5, r6, r7, r8, ?_⟩
          · intro x hx
            rcases r2 x hx with h | ⟨c2, hc2, hrel⟩
            · exact Or.inl h
            · exact Or.inr ⟨c2, List.mem_cons_of_mem _ hc2, hrel⟩
          · refine ⟨δ2, hδ2eq, fun d hd => ⟨(hδ2 d hd).1, ?_⟩⟩
            obtain ⟨c2, hc2, hrel⟩ := (hδ2 d hd).2
            exact ⟨c2, List.mem_cons_of_mem _ hc2, hrel⟩
          · intro c2 hc2
            rcases List.mem_cons.mp hc2 with he | he
            · subst he
              exact r1 c2 hcv
            · exact r9 c2 he
        · rw [if_neg hcv] at hK
          rcases hP : tsortGo cfg fuel vis0 res0 c with ⟨vis1, res1⟩
          rw [hP] at hK
          obtain ⟨⟨e, he, hev⟩, hrc⟩ := hcs c (List.mem_cons_self c cs2)
          have htmc : tm cfg (c :: vis0) < fuel := by
            have h1 := tm_lt cfg vis0 c e he hev hcv
            omega
          obtain ⟨p1, p2, ⟨δ1, hδ1eq, hδ1⟩, p4, p5, p6, p7, p8⟩ :=
            ih vis0 res0 (n :: st) c htmc hcv hrc hpart0 hnodup0 hdisj0 hord0
              hclos0 vis1 res1 hP
          have hvis01 : ∀ x, x ∈ vis0 → x ∈ vis1 :=
            fun x hx => p1 x (List.mem_cons_of_mem _ hx)
          obtain ⟨r1, r2, ⟨δ2, hδ2eq, hδ2⟩, r4, r5, r6, r7, r8, r9⟩ :=
            ihq vis1 res1
              (lt_of_le_of_lt (tm_mono cfg vis0 vis1 hvis01) htm0)
              (fun c2 hc2 => hcs c2 (List.mem_cons_of_mem _ hc2))
              p4 p5 p6 p7 p8 W T hK
          refine ⟨?_, ?_, ?_, r4, r5, r6, r7, r8, ?_⟩
          · exact fun x hx => r1 x (hvis01 x hx)
          · intro x hx
            rcases r2 x hx with h | ⟨c2, hc2, hrel⟩
            · rcases p2 x h with h2 | h2
              · exact Or.inl h2
              · exact Or.inr ⟨c, List.mem_cons_self c cs2, h2⟩
            · exact Or.inr ⟨c2, List.mem_cons_of_mem _ hc2, hrel⟩
          · refine ⟨δ1 ++ δ2, by rw [hδ2eq, hδ1eq, List.append_assoc], ?_⟩
            intro d hd
            rcases List.mem_append.mp hd with hd1 | hd2
            · exact ⟨(hδ1 d hd1).1, c, List.mem_cons_self c cs2, (hδ1 d hd1).2⟩
            · refine ⟨fun hdv => (hδ2 d hd2).1 (hvis01 d hdv), ?_⟩
              obtain ⟨c2, hc2, hrel⟩ := (hδ2 d hd2).2
              exact ⟨c2, List.mem_cons_of_mem _ hc2, hrel⟩
          · intro c2 hc2
            rcases List.mem_cons.mp hc2 with he2 | he2
            · subst he2
              exact r1 c2 (p1 c2 (List.mem_cons_self c2 vis0))
            · exact r9 c2 he2
    intro vis2 res2 hR
    rcases hK : tsortKids (tsortGo cfg fuel) (n :: vis) res (dependents cfg n)
      with ⟨W, T⟩
    have hR2 : (W, T ++ [n]) = (vis2, res2) := by
      rw [← hR]
      simp only [tsortGo, hK]
    injection hR2 with hv he
    subst hv
    subst he
    have hQpart : ∀ x : String × Bool, x ∈ n :: vis ↔ (x ∈ res ∨ x ∈ n :: st) := by
      intro x
      constructor
      · intro hx
        rcases List.mem_cons.mp hx with he | he
        · exact Or.inr (he ▸ List.mem_cons_self n st)
        · rcases (hpart x).mp he with h | h
          · exact Or.inl h
          · exact Or.inr (List.mem_cons_of_mem _ h)
      · intro hx
        rcases hx with h | h
        · exact List.mem_cons_of_mem _ ((hpart x).mpr (Or.inl h))
        · rcases List.mem_cons.mp h with he | he
          · exact he ▸ List.mem_cons_self n vis
          · exact List.mem_cons_of_mem _ ((hpart x).mpr (Or.inr he))
    have hnres : n ∉ res := fun hh => hnvis ((hpart n).mpr (Or.inl hh))
    have hnst : n ∉ st := fun hh => hnvis ((hpart n).mpr (Or.inr hh))
    have hQdisj : ∀ x, x ∈ n :: st → x ∉ res := by
      intro x hx
      rcases List.mem_cons.mp hx with he | he
      · exact he ▸ hnres
      · exact hdisj x he
    have hQord : ∀ u v, u ∈ res → v ∈ dependents cfg u →
        (v ∈ n :: st ∨ (v ∈ res ∧ pos res v < pos res u)) := by
      intro u v hu hv
      rcases hord u v hu hv with h | h
      · exact Or.inl (List.mem_cons_of_mem _ h)
      · exact Or.inr h
    have hQclos : ∀ u, u ∈ n :: vis → u ∉ n :: st →
        ∀ v, v ∈ dependents cfg u → v ∈ n :: vis := by
      intro u hu hust v hv
      have hun : u ≠ n := fun he2 => hust (he2 ▸ List.mem_cons_self n st)
      have hu2 : u ∈ vis := by
        rcases List.mem_cons.mp hu with he2 | he2
        · exact absurd he2 hun
        · exact he2
      have hust2 : u ∉ st := fun hh => hust (List.mem_cons_of_mem _ hh)
      exact List.mem_cons_of_mem _ (hclos u hu2 hust2 v hv)
    have hQcs : ∀ c, c ∈ dependents cfg n →
        (∃ e, e ∈ cfg ∧ (e.1, true) = c) ∧ RelN cfg start c := by
      intro c hc
      exact ⟨depShape hc, Relation.ReflTransGen.tail hreach hc⟩
    obtain ⟨q1, q2, ⟨δq, hTeq, hδq⟩, q4, q5, q6, q7, q8, q9⟩ :=
      Q (dependents cfg n) (n :: vis) res htm hQcs hQpart hnodup hQdisj hQord
        hQclos W T hK
    have hnT : n ∉ T := q6 n (List.mem_cons_self n st)
    refine ⟨q1, ?_, ?_, ?_, ?_, ?_, ?_, ?_⟩
    · intro x hx
      rcases q2 x hx with h | ⟨c, hc, hrel⟩
      · rcases List.mem_cons.mp h with he2 | he2
        · exact Or.inr (he2 ▸ Relation.ReflTransGen.refl)
        · exact Or.inl he2
      · exact Or.inr (Relation.ReflTransGen.head hc hrel)
    · refine ⟨δq ++ [n], by rw [hTeq, List.append_assoc], ?_⟩
      intro d hd
      rcases List.mem_append.mp hd with hd1 | hd2
      · refine ⟨fun hdv => (hδq d hd1).1 (List.mem_cons_of_mem _ hdv), ?_⟩
        obtain ⟨c, hc, hrel⟩ := (hδq d hd1).2
        exact Relation.ReflTransGen.head hc hrel
      · have hdn : d = n := by simpa using hd2
        subst hdn
        exact ⟨hnvis, Relation.ReflTransGen.refl⟩
    · intro x
      constructor
      · intro hx
        rcases (q4 x).mp hx with h | h
        · exact Or.inl (List.mem_append_left _ h)
        · rcases List.mem_cons.mp h with he2 | he2
          · exact Or.inl (List.mem_append_right _ (by simp [he2]))
          · exact Or.inr he2
      · intro hx
        rcases hx with h | h
        · rcases List.mem_append.mp h with h1 | h1
          · exact (q4 x).mpr (Or.inl h1)
          · have hxn : x = n := by simpa using h1
            exact (q4 x).mpr (Or.inr (hxn ▸ List.mem_cons_self n st))
        · exact (q4 x).mpr (Or.inr (List.mem_cons_of_mem _ h))
    · refine List.nodup_append.mpr ⟨q5, List.nodup_singleton n, ?_⟩
      intro a ha hb
      have han : a = n := by simpa using hb
      exact hnT (han ▸ ha)
    · intro x hx hmem
      rcases List.mem_append.mp hmem with h1 | h1
      · exact q6 x (List.mem_cons_of_mem _ hx) h1
      · have hxn : x = n := by simpa using h1
        exact hnst (hxn ▸ hx)
    · intro u v hu hv
      rcases List.mem_append.mp hu with huT | huN
      · rcases q7 u v huT hv with hvns | ⟨hvT, hidx⟩
        · rcases List.mem_cons.mp hvns with he2 | he2
          · subst he2
            exfalso
            rw [hTeq] at huT
            rcases List.mem_append.mp huT with huold | hunew
            · rcases hord u v huold hv with h | h
              · exact hnst h
              · exact hnres h.1
            · have hrelnu : RelN cfg v u := by
                obtain ⟨c, hc, hrel⟩ := (hδq u hunew).2
                exact Relation.ReflTransGen.head hc hrel
              have h1 : rkN u ≤ rkN v := relNRankLe cfg start rkN hrk hreach hrelnu
              have h2 : rkN v < rkN u :=
                hrk u v (Relation.ReflTransGen.trans hreach hrelnu) hv
              omega
          · exact Or.inl he2
        · refine Or.inr ⟨List.mem_append_left _ hvT, ?_⟩
          rw [posAppMem _ hvT, posAppMem _ huT]
          exact hidx
      · have hun : u = n := by simpa using huN
        subst hun
        have hvW : v ∈ W := q9 v hv
        rcases (q4 v).mp hvW with hvT | hvns
        · refine Or.inr ⟨List.mem_append_left _ hvT, ?_⟩
          rw [posAppMem _ hvT, posAppNot _ hnT]
          have hlt := pos_lt_length hvT
          have h0 : pos ([u] : List (String × Bool)) u = 0 := by simp [pos]
          omega
        · rcases List.mem_cons.mp hvns with he2 | he2
          · subst he2
            exact absurd (hrk v v hreach hv) (lt_irrefl _)
          · exact Or.inl he2
    · intro u hu hust v hv
      by_cases hun : u = n
      · subst hun
        exact q9 v hv
      · exact q8 u hu (fun hh => (List.mem_cons.mp hh).elim hun hust) v hv

/-- C1: on an acyclic live-dependency graph (acyclicity witnessed by a rank
strictly decreasing along live edges out of aliases reachable from the
start), `get_affected_images` returns exactly the aliases transitively
live-dependent on the start alias (the start included), each exactly once
and paired with `true`, and ordered so that every alias appears strictly
before every alias that transitively depends on it; a start alias with no
live dependents yields the singleton of itself.  Pinned entries create no
edge, so aliases connected only through pins are absent. -/
theorem C1_affected_images (cfg : Cfg) (al : String) (rk : String → Nat)
    (hrk : ∀ a b, ReachLive cfg al a → depends cfg a b → rk b < rk a) :
    (∀ p : String × Bool, p ∈ get_affected_images cfg al ↔
      (p.2 = true ∧ ReachLive cfg al p.1)) ∧
    (get_affected_images cfg al).Nodup ∧
    (∀ u v, ReachLive cfg al u → Relation.TransGen (depends cfg) u v →
      ∃ l1 l2, get_affected_images cfg al = l1 ++ (u, true) :: l2 ∧
        (v, true) ∈ l2) ∧
    (dependents cfg (al, true) = [] → get_affected_images cfg al = [(al, true)]) := by
  have hrkN : ∀ a b : String × Bool, RelN cfg (al, true) a →
      b ∈ dependents cfg a →
      (fun p : String × Bool => rk p.1) b < (fun p : String × Bool => rk p.1) a := by
    intro a b ha hb
    have hm := mem_dependents.mp hb
    exact hrk a.1 b.1 (bridgeFwd ha).2 hm.2.2
  rcases hR : tsortGo cfg (cfg.length + 1) [] [] (al, true) with ⟨visF, resF⟩
  have htm : tm cfg ((al, true) :: []) < cfg.length + 1 := by
    have := tm_le cfg [(al, true)]
    omega
  obtain ⟨p1, p2, ⟨δ, hδeq, hδ⟩, p4, p5, p6, p7, p8⟩ :=
    tsortAux cfg (al, true) (fun p => rk p.1) hrkN (cfg.length + 1) [] [] []
      (al, true) htm (List.not_mem_nil _) Relation.ReflTransGen.refl
      (by intro x; simp) List.nodup_nil (by intro x hx; simp at hx)
      (by intro u v hu; simp at hu) (by intro u hu; simp at hu)
      visF resF hR
  rw [List.nil_append] at hδeq
  have hres : get_affected_images cfg al = resF.reverse := by
    simp only [get_affected_images, hR]
  have hcompl : ∀ b, ReachLive cfg al b → (b, true) ∈ visF := by
    intro b hb
    induction hb with
    | refl => exact p1 (al, true) (List.mem_cons_self _ _)
    | tail _ hstep ih =>
      exact p8 _ ih (List.not_mem_nil _) _ (mem_dependents.mpr ⟨rfl, rfl, hstep⟩)
  have hmemvis : ∀ x, x ∈ visF ↔ x ∈ resF := by
    intro x
    rw [p4 x]
    simp
  have hstepIdx : ∀ z w, ReachLive cfg al z → depends cfg z w →
      ((w, true) ∈ resF ∧ (z, true) ∈ resF ∧
        pos resF (w, true) < pos resF (z, true)) := by
    intro z w hz hw
    have hzin : (z, true) ∈ resF := (hmemvis _).mp (hcompl z hz)
    have hedge : (w, true) ∈ dependents cfg (z, true) :=
      mem_dependents.mpr ⟨rfl, rfl, hw⟩
    rcases p7 (z, true) (w, true) hzin hedge with h | ⟨h1, h2⟩
    · simp at h
    · exact ⟨h1, hzin, h2⟩
  have hord2 : ∀ u v, ReachLive cfg al u → Relation.TransGen (depends cfg) u v →
      ((v, true) ∈ resF ∧ (u, true) ∈ resF ∧
        pos resF (v, true) < pos resF (u, true)) := by
    intro u v hu htg
    induction htg with
    | single h => exact hstepIdx u _ hu h
    | tail htg2 hstep ih =>
      obtain ⟨hc1, hb1, hlt1⟩ := hstepIdx _ _
        (Relation.ReflTransGen.trans hu htg2.to_reflTransGen) hstep
      exact ⟨hc1, ih.2.1, lt_trans hlt1 ih.2.2⟩
  refine ⟨?_, ?_, ?_, ?_⟩
  · intro p
    rw [hres, List.mem_reverse]
    constructor
    · intro hp
      rw [hδeq] at hp
      exact bridgeFwd (hδ p hp).2
    · intro ⟨hp2, hpr⟩
      have h1 : (p.1, true) ∈ visF := hcompl p.1 hpr
      have h2 : p = (p.1, true) := by
        rw [← hp2]
      rw [h2]
      exact (hmemvis _).mp h1
  · rw [hres]
    exact List.nodup_reverse.mpr p5
  · intro u v hu htg
    obtain ⟨hvm, hum, hlt⟩ := hord2 u v hu htg
    obtain ⟨l1, l2, hsplit, hvin⟩ := revSplit resF (u, true) (v, true) hum hvm hlt
    rw [hres]
    exact ⟨l1, l2, hsplit, hvin⟩
  · intro h
    have hh : tsortGo cfg (cfg.length + 1) [] [] (al, true) =
        ([(al, true)], [(al, true)]) := by
      simp [tsortGo, h, tsortKids]
    simp [get_affected_images, hh]

theorem C1rk_dec (a b : String) (h : depends C1cfg a b) : C1rk b < C1rk a := by
  obtain ⟨e, he, heb, hed⟩ := h
  simp only [C1cfg] at he
  rcases List.mem_cons.mp he with he1 | he1
  · subst he1
    simp [dictGet] at hed
  · have he2 : e = ("b", ({ depends_on := [("a", DepVal.live)] } : ImageInfo)) := by
      simpa using he1
    subst he2
    have hed2 : dictGet [("a", DepVal.live)] a = some DepVal.live := hed
    simp only [dictGet] at hed2
    by_cases ha : ("a" : String) = a
    · subst ha
      subst heb
      decide
    · rw [if_neg ha] at hed2
      exact absurd hed2 (by simp)

/-- Witness for C1 at the two-alias table; the affected sequence is the pair
of nodes in dependency order. -/
theorem C1_affected_images_witness :
    (∀ a b, ReachLive C1cfg "a" a → depends C1cfg a b → C1rk b < C1rk a) ∧
    (get_affected_images C1cfg "a").Nodup ∧
    (∀ p : String × Bool, p ∈ get_affected_images C1cfg "a" ↔
      (p.2 = true ∧ ReachLive C1cfg "a" p.1)) ∧
    get_affected_images C1cfg "a" = [("a", true), ("b", true)] := by
  have hrk : ∀ a b, ReachLive C1cfg "a" a → depends C1cfg a b → C1rk b < C1rk a :=
    fun a b _ h => C1rk_dec a b h
  have hmain := C1_affected_images C1cfg "a" C1rk hrk
  exact ⟨hrk, hmain.2.1, hmain.1, by decide⟩

end Craftsbot
